import Mathlib

/-!
Verification of the Skyhooks allocator core against its specification.

The development shallowly embeds the relevant Rust sources:
* `src/generic_heap.rs` — bookmark encoding and the generic free/realloc dispatch;
* `src/bump_heap.rs`    — the bump-path bookmark write;
* `src/api.rs`, `src/lib.rs` — the `nu_calloc` entry points;
* `src/small_heap.rs`   — the small-heap free routing;
* `src/collections/lflist.rs` — the paged lock-free list (sequential semantics);
* `src/lfmap.rs`        — the lock-free hash table (sequential semantics).

Machine words are modelled as `Nat` with explicit `% 2^64` where wrap-around
matters.  Concurrency-only code paths (CAS failure, back-off, the exchange
array) are unreachable in the single-threaded semantics considered here; the
embeddings note where a CAS is modelled as the successful sequential case.
-/

namespace Skyhooks

/-- Word size: the sources target 64-bit (`mem::size_of::<usize>() == 8`). -/
def WORD : Nat := 2 ^ 64

/-! ## Bookmark encoding and the generic free dispatch (`generic_heap.rs`, `bump_heap.rs`) -/

/-- `BOOKMARK_TYPE_FLAG_MASK` (generic_heap.rs:13). -/
def BOOKMARK_TYPE_FLAG_MASK : Nat := 1

/-- `object_bookmark` (generic_heap.rs:95-99).  The word read at
`obj_addr - size_of::<usize>()` is passed in as `bookmark`; the function
returns `(bookmark & !BOOKMARK_TYPE_FLAG_MASK, bookmark & BOOKMARK_TYPE_FLAG_MASK == 0)`.
On a 64-bit `usize`, `!BOOKMARK_TYPE_FLAG_MASK = 2^64 - 2`. -/
def object_bookmark (bookmark : Nat) : Nat × Bool :=
  (bookmark &&& (WORD - 2), bookmark &&& BOOKMARK_TYPE_FLAG_MASK == 0)

/-- The two targets of the generic free dispatch (generic_heap.rs:36-44). -/
inductive FreePath where
  | smallHeap
  | largeHeap
deriving DecidableEq

/-- `free` (generic_heap.rs:36-44): read the bookmark word preceding the
object, then `if !is_bump { small_heap::free(..) } else { large_heap::free(..) }`. -/
def generic_free_path (bookmarkWord : Nat) : FreePath :=
  let is_bump := (object_bookmark bookmarkWord).2
  if !is_bump then .smallHeap else .largeHeap

/-- The bookmark word written by the bump allocator
(`AllocatorInstance::alloc`, bump_heap.rs:146-153):
`ptr::write(size_ptr, actual_size + 1)` where
`debug_assert_eq!(actual_size & BOOKMARK_TYPE_FLAG_MASK, 0)`. -/
def bump_bookmark_word (actual_size : Nat) : Nat := actual_size + 1

/-- The bookmark word written by `make_bookmark` (generic_heap.rs:116-126):
`if is_bump { bookmark + 1 } else { bookmark }` with
`debug_assert_eq!(bookmark & BOOKMARK_TYPE_FLAG_MASK, 0)`. -/
def make_bookmark_word (bookmark : Nat) (is_bump : Bool) : Nat :=
  if is_bump then bookmark + 1 else bookmark

/-! ## A deterministic environment for the generic dispatch routines

`generic_heap::realloc` and `api::nu_calloc` call `malloc`, `free`, `memcpy`,
`memset` and the bookmark size lookup.  Those callees (whole subsystems of
their own) are modelled by a small deterministic heap: `malloc` returns a
fresh non-null address and records the requested size (the record plays the
role of the bookmark word), `free` erases the record, `memcpy`/`memset` act
on a byte memory. -/

structure MiniHeap where
  mem : Nat → Nat
  allocSize : Nat → Option Nat
  next : Nat

/-- Fresh-block allocation: returns `h.next` and records the size there. -/
def MiniHeap.malloc (h : MiniHeap) (size : Nat) : MiniHeap × Nat :=
  ({ h with
      allocSize := fun p => if p = h.next then some size else h.allocSize p,
      next := h.next + size + 1 }, h.next)

def MiniHeap.free (h : MiniHeap) (p : Nat) : MiniHeap :=
  { h with allocSize := fun q => if q = p then none else h.allocSize q }

/-- `memcpy(dst, src, n)`. -/
def MiniHeap.memcpy (h : MiniHeap) (dst src n : Nat) : MiniHeap :=
  { h with mem := fun a => if dst ≤ a ∧ a < dst + n then h.mem (src + (a - dst)) else h.mem a }

/-- `memset(dst, v, n)`. -/
def MiniHeap.memset (h : MiniHeap) (dst v n : Nat) : MiniHeap :=
  { h with mem := fun a => if dst ≤ a ∧ a < dst + n then v else h.mem a }

/-- The recorded size of the allocation at `p`: stands for
`large_heap::size_of`/`small_heap::size_of` reading the object's metadata
(generic_heap.rs:60-65). -/
def MiniHeap.sizeOf (h : MiniHeap) (p : Nat) : Nat := (h.allocSize p).getD 0

/-- `realloc` (generic_heap.rs:52-74):
null pointer → `malloc(size)`; zero size → `free(ptr)` and null; recorded
size at least the request → return `ptr` untouched; otherwise allocate,
`memcpy(new_ptr, ptr, old_size)`, free the old block. -/
def generic_realloc (h : MiniHeap) (ptr size : Nat) : MiniHeap × Nat :=
  if ptr = 0 then h.malloc size
  else if size = 0 then (h.free ptr, 0)
  else
    let old_size := h.sizeOf ptr
    if old_size ≥ size then (h, ptr)
    else
      let (h1, new_ptr) := h.malloc size
      let h2 := h1.memcpy new_ptr ptr old_size
      (h2.free ptr, new_ptr)

/-! ## The two `nu_calloc` entry points (`api.rs`, `lib.rs`) -/

/-- `nu_malloc` (api.rs:19-33): a zero size returns null (C17 7.22.3/1),
otherwise the request is served by `generic_heap::malloc` — modelled by
`MiniHeap.malloc` returning a fresh non-null block.  (The reentrancy-guard
branch routes to `bump_heap::malloc` instead; both return a fresh block in
this model.) -/
def nu_malloc (h : MiniHeap) (size : Nat) : MiniHeap × Nat :=
  if size = 0 then (h, 0) else h.malloc size

/-- `nu_calloc` (api.rs:49-57).  `let total_size = nmemb * size` is a `usize`
multiplication with no overflow check; in release builds it wraps modulo
`2^64`.  The block is memset to zero when the returned pointer is non-null. -/
def nu_calloc (h : MiniHeap) (nmemb size : Nat) : MiniHeap × Nat :=
  let total_size := nmemb * size % WORD
  let (h1, ptr) := nu_malloc h total_size
  if ptr ≠ 0 then (h1.memset ptr 0 total_size, ptr) else (h1, ptr)

/-- Modelled from the spec: `lib.rs`'s `nu_malloc` is `unimplemented!()`;
the spec (§6, External interfaces) requires zero-size malloc to return null
and otherwise a block of the requested size, modelled by `MiniHeap.malloc`. -/
def lib_nu_malloc (h : MiniHeap) (size : Nat) : MiniHeap × Nat :=
  if size = 0 then (h, 0) else h.malloc size

/-- `nu_calloc` (lib.rs:33-40).  Note the condition `if ptr == NULL_PTR`:
the block is memset to zero only when the returned pointer IS null. -/
def lib_nu_calloc (h : MiniHeap) (nmemb size : Nat) : MiniHeap × Nat :=
  let total_size := nmemb * size % WORD
  let (h1, ptr) := lib_nu_malloc h total_size
  if ptr = 0 then (h1.memset ptr 0 total_size, ptr) else (h1, ptr)

/-- A concrete heap whose memory is initially all-ones bytes. -/
def calloc_h0 : MiniHeap := ⟨fun _ => 1, fun _ => none, 1⟩

/-! ## Small-heap free routing (`small_heap.rs`) -/

/-- Object metadata as published by the small heap
(`ThreadMeta::object_map`, small_heap.rs:178-186). -/
structure SmallObjectMeta where
  size : Nat
  addr : Nat
  numa : Nat
  tier : Nat
  tid : Nat
deriving DecidableEq

/-- The observable effect of `small_heap::free` (small_heap.rs:116-152). -/
inductive SmallFreeAction where
  /-- address outside `[HEAP_BASE, HEAP_UPPER_BOUND]`: return `false` -/
  | outOfBounds
  /-- `node.pending_free.as_ref().unwrap().push(addr)` (`RemoteNodeFree::push`,
  small_heap.rs:313-316), return `true` -/
  | remotePush
  /-- the owning node's object map misses the address: return `false` -/
  | remoteIgnore
  /-- object belongs to the freeing thread: `meta.sizes[tier].free_list.push(addr)` -/
  | localSelf (tier : Nat)
  /-- owning thread found: `node.thread_free[tid][tier].push(addr)` -/
  | localOwner (tid tier : Nat)
  /-- owning thread gone: `meta.sizes[tier].free_list.push(addr)` -/
  | localFallback (tier : Nat)
  /-- map miss on the freeing thread's own node: return `false` -/
  | localNotFound
deriving DecidableEq

/-- `addr_numa_id` (small_heap.rs:400-408): `(addr - *HEAP_BASE) >> shift_bits`. -/
def addr_numa_id (heapBase shiftBits addr : Nat) : Nat :=
  (addr - heapBase) >>> shiftBits

/-- `small_heap::free` (small_heap.rs:116-152), as a routing decision.
`objects` is the owning node's address→metadata map (after
`node.objects.refresh()`); `threadFreeHas` is membership in the owning
node's `thread_free` registry; the freeing thread runs on node `curNuma`
with thread id `curTid`. -/
def small_free (heapBase heapUpper shiftBits curNuma curTid : Nat)
    (objects : Nat → Option SmallObjectMeta) (threadFreeHas : Nat → Bool)
    (addr : Nat) : SmallFreeAction :=
  if addr < heapBase ∨ addr > heapUpper then .outOfBounds
  else
    let node_id := addr_numa_id heapBase shiftBits addr
    if node_id ≠ curNuma then
      if (objects addr).isSome then .remotePush else .remoteIgnore
    else
      match objects addr with
      | some m =>
          if m.tid = curTid then .localSelf m.tier
          else if threadFreeHas m.tid then .localOwner m.tid m.tier
          else .localFallback m.tier
      | none => .localNotFound

/-! ## The paged lock-free list (`collections/lflist.rs`), sequential semantics

A `List<T>` is a stack of page-sized buffers: the list's `head` points at
the newest buffer and each buffer's `next` points at the next older one
(`BufferMeta`, lflist.rs:40-48).  A buffer holds up to `buffer_cap` slots,
filled from low to high; its `head` index counts the filled slots.  In the
single-threaded semantics every CAS succeeds on the first try, so the
exchange array (entered only after a CAS miss, lflist.rs:137) and sentinel
slots (written only when a pop loses the buffer-head CAS to a concurrent
push, lflist.rs:262) never arise; the retiring-buffer drain
(lflist.rs:216-224) scans a buffer whose head index is already `0` and
re-pushes nothing.  A buffer is modelled as the list of its filled
`(flag, data)` slots, lowest slot first; the chain is newest buffer first. -/

structure PagedList (T : Type) where
  buffers : List (List (Nat × T))
  count : Nat
  cap : Nat

/-- `List::new(buffer_cap)` (lflist.rs:76-84): one empty buffer, count 0. -/
def PagedList.new (T : Type) (cap : Nat) : PagedList T := ⟨[[]], 0, cap⟩

/-- `List::do_push` (lflist.rs:91-149): if the head buffer is full
(`slot_pos + 1 > buffer_cap`), link a fresh buffer in front and retry — the
retry then lands in slot 0 of the fresh buffer (this needs `buffer_cap ≥ 1`);
otherwise CAS the buffer head from `slot_pos` to `slot_pos + 1` (always
succeeds here) and write the pair into the claimed slot. -/
def PagedList.doPush {T} (s : PagedList T) (flag : Nat) (data : T) : PagedList T :=
  match s.buffers with
  | [] => s   -- unreachable: the chain always holds at least one buffer
  | b :: rest =>
    if b.length + 1 > s.cap then
      { s with buffers := [(flag, data)] :: b :: rest }
    else
      { s with buffers := (b ++ [(flag, data)]) :: rest }

/-- `List::push` (lflist.rs:86-89): `do_push(flag, data)` then
`count.fetch_add(1)`. -/
def PagedList.push {T} (s : PagedList T) (flag : Nat) (data : T) : PagedList T :=
  { s.doPush flag data with count := s.count + 1 }

/-- The buffer-chain walk of `List::pop` (lflist.rs:192-284): a head buffer
with head index `0` and a non-null `next` is unlinked and drained (nothing
to re-push sequentially); with head index `0` and null `next` the list is
empty; a slot carrying `SENTINEL_SLOT = 1` is discarded and the pop retried;
otherwise the top slot is claimed and returned. -/
def PagedList.popGo {T} : List (List (Nat × T)) → Nat → Option ((Nat × T) × List (List (Nat × T)))
  | [], _ => none
  | _ :: _, 0 => none
  | b :: rest, fuel + 1 =>
    match b.getLast? with
    | none => if rest.isEmpty then none else PagedList.popGo rest fuel
    | some (f, d) =>
        if f = 1 then PagedList.popGo (b.dropLast :: rest) fuel
        else some ((f, d), b.dropLast :: rest)

/-- Fuel bound for the chain walk: one step per buffer plus one per slot. -/
def PagedList.fuelOf {T} (s : PagedList T) : Nat :=
  s.buffers.length + (s.buffers.map List.length).sum

/-- `List::pop` (lflist.rs:186-284): returns `None` straight away when the
element count is zero; a successful pop decrements the count. -/
def PagedList.pop {T} (s : PagedList T) : Option ((Nat × T) × PagedList T) :=
  if s.count = 0 then none
  else
    match PagedList.popGo s.buffers s.fuelOf with
    | none => none
    | some (p, bufs) => some (p, { s with buffers := bufs, count := s.count - 1 })

def PagedList.pushAll {T} (s : PagedList T) (xs : List (Nat × T)) : PagedList T :=
  xs.foldl (fun s x => s.push x.1 x.2) s

/-- Pop repeatedly (at most `fuel` times) until the list reports empty. -/
def PagedList.popAll {T} (s : PagedList T) : Nat → List (Nat × T)
  | 0 => []
  | fuel + 1 =>
    match s.pop with
    | none => []
    | some (p, s') => p :: s'.popAll fuel

/-- The pushed pairs in chronological order: oldest buffer first, each
buffer lowest slot first. -/
def PagedList.toChron {T} (s : PagedList T) : List (Nat × T) :=
  s.buffers.reverse.flatten

/-- Sequentially reachable list states. -/
structure PagedList.Good {T} (s : PagedList T) : Prop where
  nonempty : s.buffers ≠ []
  countEq : s.count = (s.buffers.map List.length).sum
  capBound : ∀ b ∈ s.buffers, b.length ≤ s.cap
  flagsGood : ∀ b ∈ s.buffers, ∀ p ∈ b, p.1 ≠ 0 ∧ p.1 ≠ 1

/-- A concrete heap for the realloc witness: one 2-byte block at address 3. -/
def c2_h0 : MiniHeap := ⟨fun a => a + 100, fun p => if p = 3 then some 2 else none, 10⟩

/-! ## The lock-free hash table (`lfmap.rs`), sequential semantics

`Table` keeps two chunk pointers; outside a resize they are equal, and in
the single-threaded semantics every resize completes inside the `insert`
that triggered it, so the table state between operations is a single chunk.
Every CAS succeeds on its first attempt; the places where a sequential CAS
is replaced by its success case are noted inline.  Values are at word
level (`WordMap`: the attachment is the no-op `WordAttachment`). -/

/-- `val_bit_mask = !0 << 1 >> 1` (lfmap.rs:85) on a 64-bit word. -/
def VAL_BIT_MASK : Nat := 2 ^ 63 - 1

/-- `inv_bit_mask = !val_bit_mask` (lfmap.rs:91). -/
def INV_BIT_MASK : Nat := 2 ^ 63

inductive ParsedValue where
  | val (v : Nat)
  | prime (v : Nat)
  | sentinel
  | empty
deriving DecidableEq

/-- `Value::new` (lfmap.rs:471-493).  Note the source compares
`flag == 1` where `flag = raw & inv_bit_mask` is either `0` or `2^63`, so
the `prime` arm can never be taken; a primed raw value parses as `val` of
its low 63 bits. -/
def parseValue (raw : Nat) : ParsedValue :=
  if raw = 0 then .empty
  else
    let actual := raw &&& VAL_BIT_MASK
    let flag := raw &&& INV_BIT_MASK
    if flag = 1 then .prime actual
    else if actual = 1 then .sentinel
    else .val actual

/-- A chunk (lfmap.rs:56-65): `slots` is the array of
`(key, raw value)` word pairs at `base` (`capacity` entries); the reference
count and the (no-op) attachment are omitted. -/
structure Chunk where
  cap : Nat
  slots : List (Nat × Nat)
  occupation : Nat
  occuLimit : Nat
deriving DecidableEq

/-- `occupation_limit` (lfmap.rs:586-588) computes `(cap as f64 * 0.7) as
usize`.  For every power-of-two capacity below `2^52` the `f64` product
truncates to exactly `⌊7·cap/10⌋` (the relative rounding error `≈ 4.5e-17·cap`
is smaller than the distance `≥ 0.2` from `7·cap/10` to the integer below),
which is the form used here. -/
def occupation_limit (cap : Nat) : Nat := 7 * cap / 10

/-- `Chunk::alloc_chunk` (lfmap.rs:505-517): memory comes from
`alloc_zeroed`, so every slot starts as `(EMPTY_KEY, EMPTY_VALUE) = (0, 0)`. -/
def alloc_chunk (cap : Nat) : Chunk :=
  ⟨cap, List.replicate cap (0, 0), 0, occupation_limit cap⟩

/-- The `(key, raw value)` pair stored at slot `i`. -/
def entryAt (slots : List (Nat × Nat)) (i : Nat) : Nat × Nat := slots.getD i (0, 0)

def keyOf (slots : List (Nat × Nat)) (i : Nat) : Nat := (entryAt slots i).1

def valOf (slots : List (Nat × Nat)) (i : Nat) : Nat := (entryAt slots i).2

/-- `ModOp` (lfmap.rs:48-54), at word level. -/
inductive ModOp where
  | insert (v : Nat)
  | attemptInsert (v : Nat)
  | sentinel
  | empty
deriving DecidableEq

/-- `ModResult` (lfmap.rs:33-41).  `done` carries the slot index (the
source carries the entry address `base + idx * entry_size`). -/
inductive ModResult where
  | replaced (v : Nat)
  | fail (v : Nat)
  | sentinel
  | notFound
  | done (idx : Nat)
  | tableFull
deriving DecidableEq

/-- The probe loop of `Table::modify_entry` (lfmap.rs:232-323).  `fuel`
counts the remaining iterations of `while count <= cap` (so it starts at
`cap + 1`); `idx` is reduced by `idx &= cap - 1` at the top of each
iteration; `replaced` is the value tombstoned earlier in this probe.  Every
CAS (`set_tombstone`, `cas_value` in `put_in_empty`) is taken in its
sequential success case whenever its compare-value matches, and reprobes on
mismatch exactly as the source does. -/
def modifyGo (cap key : Nat) (op : ModOp) :
    List (Nat × Nat) → Nat → Option Nat → Nat → (ModResult × Nat) × List (Nat × Nat)
  | slots, _idx, _replaced, 0 =>
      match op with
      | .insert _ | .attemptInsert _ => ((.tableFull, 0), slots)
      | _ => ((.notFound, 0), slots)
  | slots, idx, replaced, fuel + 1 =>
      let i := idx &&& (cap - 1)
      let k := keyOf slots i
      let raw := valOf slots i
      if k = key then
        match parseValue raw with
        | .val v | .prime v =>
            match op with
            | .sentinel =>
                -- `set_sentinel` stores SENTINEL_VALUE (lfmap.rs:249-252)
                ((.done i, i), slots.set i (k, 1))
            | .empty =>
                -- `set_tombstone` (CAS raw → 0) then return Replaced
                ((.replaced v, i), slots.set i (k, 0))
            | .insert _ =>
                -- tombstone, remember the replaced value, continue probing
                modifyGo cap key op (slots.set i (k, 0)) (i + 1) (some v) fuel
            | .attemptInsert _ =>
                -- attempting to insert over an existing entry: skip
                ((.fail v, i), slots)
        | .empty =>
            -- key matches but the value is empty: keep probing (lfmap.rs:276-278)
            modifyGo cap key op slots (i + 1) replaced fuel
        | .sentinel => ((.sentinel, i), slots)
      else if k = 0 then
        -- probing an empty-keyed entry: `put_in_empty` CASes the value from
        -- 0 and then stores the key (lfmap.rs:282-314)
        match op with
        | .insert v | .attemptInsert v =>
            if raw = 0 then
              ((match replaced with
                | some r => (.replaced r, i)
                | none => (.done i, i)), slots.set i (key, v))
            else
              modifyGo cap key op slots (i + 1) replaced fuel
        | .sentinel =>
            if raw = 0 then
              ((match replaced with
                | some r => (.replaced r, i)
                | none => (.done i, i)), slots.set i (key, 1))
            else
              modifyGo cap key op slots (i + 1) replaced fuel
        | .empty => ((.fail 0, i), slots)
      else
        modifyGo cap key op slots (i + 1) replaced fuel

/-- `Table::modify_entry` (lfmap.rs:232-323): the probe starts at
`idx = key` and runs for at most `cap + 1` iterations. -/
def modify_entry (c : Chunk) (key : Nat) (op : ModOp) : (ModResult × Nat) × Chunk :=
  let r := modifyGo c.cap key op c.slots key none (c.cap + 1)
  (r.1, { c with slots := r.2 })

/-- The probe loop of `Table::get_from_chunk` (lfmap.rs:204-230); `fuel`
counts the remaining iterations of `while counter < cap`. -/
def getGo (cap key : Nat) : List (Nat × Nat) → Nat → Nat → ParsedValue × Nat
  | _slots, _idx, 0 => (.empty, 0)
  | slots, idx, fuel + 1 =>
      let i := idx &&& (cap - 1)
      let k := keyOf slots i
      let raw := valOf slots i
      if k = key then
        match parseValue raw with
        | .empty =>
            -- fall through to the `k == EMPTY_KEY` test (lfmap.rs:221-223)
            if k = 0 then (.empty, 0) else getGo cap key slots (i + 1) fuel
        | pv => (pv, i)
      else if k = 0 then (.empty, 0)
      else getGo cap key slots (i + 1) fuel

def get_from_chunk (c : Chunk) (key : Nat) : ParsedValue × Nat :=
  getGo c.cap key c.slots key c.cap

/-- The loop of `Table::get` (lfmap.rs:99-115): probe the old chunk and, on
a sentinel, continue against the new chunk.  Sequentially the two chunk
pointers coincide, the new chunk never holds a sentinel, and the loop takes
at most two rounds; `fuel = 0` stands for the (unreachable) divergence of
the source loop. -/
def getLoop (cNew : Chunk) (key : Nat) : Chunk → Nat → Option Nat
  | _, 0 => none
  | c, fuel + 1 =>
      match (get_from_chunk c key).1 with
      | .prime v | .val v => some v
      | .sentinel => getLoop cNew key cNew fuel
      | .empty => none

/-- `Table::get` over the pair (old chunk, new chunk). -/
def table_get (cOld cNew : Chunk) (key : Nat) : Option Nat :=
  getLoop cNew key cOld 2

/-- `Table::get` in the steady sequential state (old = new). -/
def chunkGet (c : Chunk) (key : Nat) : Option Nat := table_get c c key

/-- One iteration of the copy loop of `Table::check_resize`
(lfmap.rs:375-445) for old-chunk slot `i`: skip empties, sentinels and
tombstones; for a live value, attempt-insert the primed value into the new
chunk, then CAS a sentinel into the old slot and CAS the prime away in the
new chunk (all CASes succeed sequentially; a failed `attempt-insert` skips
the entry). -/
def resizeSlot (oldC newC : Chunk) (effective i : Nat) :
    Except String (Chunk × Chunk × Nat) :=
  let k := keyOf oldC.slots i
  let raw := valOf oldC.slots i
  if k = 0 then .ok (oldC, newC, effective)
  else
    match parseValue raw with
    | .val _v =>
        let primed := raw ||| INV_BIT_MASK
        let r := modify_entry newC k (.attemptInsert primed)
        match r.1.1 with
        | .done idx' =>
            -- CAS sentinel into the old slot (it still holds `raw`), then
            -- strip the prime: CAS `primed` back to `primed & val_bit_mask`
            let oldC1 := { oldC with slots := oldC.slots.set i (k, 1) }
            if valOf r.2.slots idx' = primed then
              .ok (oldC1,
                   { r.2 with slots := r.2.slots.set idx' (k, primed &&& VAL_BIT_MASK) },
                   effective + 1)
            else
              .ok (oldC1, r.2, effective)
        | .fail _ => .ok (oldC, r.2, effective)
        | .replaced _ => .error "Attempt insert does not replace anything"
        | .sentinel => .error "New chunk should not have sentinel"
        | .notFound => .error "unreachable"
        | .tableFull => .error "resize table full"
    | .prime _ => .error "Prime in old chunk when resizing"
    | .sentinel => .ok (oldC, newC, effective)
    | .empty => .ok (oldC, newC, effective)

/-- The copy loop over the first `i` old-chunk slots. -/
def resizePartial (oldC newC : Chunk) : Nat → Except String (Chunk × Chunk × Nat)
  | 0 => .ok (oldC, newC, 0)
  | i + 1 => do
      let (o, n, e) ← resizePartial oldC newC i
      resizeSlot o n e i

/-- The resize of `Table::check_resize` (lfmap.rs:352-457): allocate a new
chunk of capacity `old_cap << mult` with `mult = 4` below 2048 entries and
`1` otherwise, copy every live entry, add the effective copies to the new
chunk's occupation and drop the old chunk. -/
def do_resize (c : Chunk) : Except String Chunk := do
  let mult := if c.cap < 2048 then 4 else 1
  let newCap := c.cap <<< mult
  let (_o, n, eff) ← resizePartial c (alloc_chunk newCap) c.cap
  .ok { n with occupation := n.occupation + eff }

/-- `Table::insert` (lfmap.rs:117-155), sequentially.  If the occupancy
check fires, `check_resize` runs the whole resize and `insert` retries
(`return Err(self.insert(..))`); `fuel` bounds that recursion (2 suffices:
a fresh resize leaves the occupation under the new limit).  `table-full`
panics with "Insertion is too fast"; a sentinel result aborts with `None`
and skips the occupation increment. -/
def table_insert : Chunk → Nat → Nat → Nat → Except String (Chunk × Option Nat)
  | _, _, _, 0 => .error "insert fuel exhausted"
  | c, key, value, fuel + 1 =>
      if c.occupation > c.occuLimit then do
        let c' ← do_resize c
        table_insert c' key value fuel
      else
        let r := modify_entry c key (.insert value)
        match r.1.1 with
        | .done _ => .ok ({ r.2 with occupation := r.2.occupation + 1 }, none)
        | .replaced v => .ok ({ r.2 with occupation := r.2.occupation + 1 }, some v)
        | .fail v => .ok ({ r.2 with occupation := r.2.occupation + 1 }, some v)
        | .tableFull => .error "Insertion is too fast"
        | .sentinel => .ok (r.2, none)
        | .notFound => .error "unreachable"

/-- `Table::remove` (lfmap.rs:157-190), sequentially (`copying = false`, so
the removed value is not returned from the first probe; the `NotFound`
branch probes the old chunk — the same chunk here — and does return a
value; `table-full` panics). -/
def table_remove (c : Chunk) (key : Nat) : Except String (Chunk × Option Nat) :=
  let r := modify_entry c key .empty
  match r.1.1 with
  | .done _ => .ok (r.2, none)
  | .replaced _ => .ok (r.2, none)
  | .notFound =>
      let r2 := modify_entry r.2 key .empty
      match r2.1.1 with
      | .done v => .ok (r2.2, some v)
      | .replaced v => .ok (r2.2, some v)
      | .tableFull => .error "need to handle TableFull by remove"
      | _ => .ok (r2.2, none)
  | .tableFull => .error "need to handle TableFull by remove"
  | _ => .ok (r.2, none)

/-- A single-threaded operation against the table. -/
inductive TableOp where
  | ins (k v : Nat)
  | del (k : Nat)
deriving DecidableEq

/-- Run a sequence of operations, threading the chunk; a panic anywhere
aborts the run. -/
def runOps : Chunk → List TableOp → Except String Chunk
  | c, [] => .ok c
  | c, .ins k v :: ops => do
      let (c', _) ← table_insert c k v 2
      runOps c' ops
  | c, .del k :: ops => do
      let (c', _) ← table_remove c k
      runOps c' ops

/-- The reference map semantics of an operation sequence. -/
def applyOp (m : Nat → Option Nat) : TableOp → Nat → Option Nat
  | .ins k v => fun q => if q = k then some v else m q
  | .del k => fun q => if q = k then none else m q

def specOf (ops : List TableOp) : Nat → Option Nat :=
  ops.foldl applyOp (fun _ => none)

/-- Keys must avoid `EMPTY_KEY = 0`. -/
def GoodKey (k : Nat) : Prop := k ≠ 0

/-- Raw values must avoid `EMPTY_VALUE = 0`, `SENTINEL_VALUE = 1` and the
prime bit. -/
def GoodVal (v : Nat) : Prop := 2 ≤ v ∧ v < 2 ^ 63

def GoodOp : TableOp → Prop
  | .ins k v => GoodKey k ∧ GoodVal v
  | .del k => GoodKey k

instance : DecidablePred GoodKey := fun k => by
  unfold GoodKey; infer_instance

instance : DecidablePred GoodVal := fun v => by
  unfold GoodVal; infer_instance

instance : DecidablePred GoodOp := fun op => by
  cases op <;> (unfold GoodOp; infer_instance)

/-- Number of slots holding a non-empty key. -/
def countKeyed (slots : List (Nat × Nat)) : Nat :=
  slots.countP (fun p => p.1 ≠ 0)

/-- Probe position after `t` steps from home index `h`. -/
def pIdx (cap h t : Nat) : Nat := (h + t) % cap

/-- Number of probe steps from home `h` to index `i` (both below `cap`). -/
def probeDist (cap h i : Nat) : Nat := (i + cap - h) % cap

/-- `m[k ↦ v]`. -/
def mapUpd (m : Nat → Option Nat) (k v : Nat) : Nat → Option Nat :=
  fun q => if q = k then some v else m q

/-- `m` with `k` erased. -/
def mapDel (m : Nat → Option Nat) (k : Nat) : Nat → Option Nat :=
  fun q => if q = k then none else m q

/-- The keys copied by the first `i` iterations of the resize loop, with
their values: the model of the partially filled new chunk. -/
def copiedMap (c : Chunk) : Nat → Nat → Option Nat
  | 0 => fun _ => none
  | i + 1 => fun q =>
      if keyOf c.slots i = q ∧ valOf c.slots i ≠ 0 then some (valOf c.slots i)
      else copiedMap c i q

/-- The probe-structure invariant of a slot array relative to a model map
`m` (keys of the hash table at word level). -/
structure SlotsInv (cap : Nat) (slots : List (Nat × Nat)) (m : Nat → Option Nat) : Prop where
  lenEq : slots.length = cap
  /-- a virgin slot (empty key) also has an empty value -/
  keyZero : ∀ i, i < cap → keyOf slots i = 0 → valOf slots i = 0
  /-- every live slot is the table's binding for its key -/
  liveOk : ∀ i, i < cap → valOf slots i ≠ 0 →
      keyOf slots i ≠ 0 ∧ m (keyOf slots i) = some (valOf slots i)
  /-- every binding is realised by a slot -/
  complete : ∀ k v, m k = some v → ∃ i, i < cap ∧ keyOf slots i = k ∧ valOf slots i = v
  /-- at most one live slot per key -/
  uniqLive : ∀ i j, i < cap → j < cap → valOf slots i ≠ 0 → valOf slots j ≠ 0 →
      keyOf slots i = keyOf slots j → i = j
  /-- no virgin slot strictly before a live slot on its probe path -/
  reach : ∀ i, i < cap → valOf slots i ≠ 0 →
      ∀ t, t < probeDist cap (keyOf slots i % cap) i →
        keyOf slots (pIdx cap (keyOf slots i % cap) t) ≠ 0

/-- All bindings of the model carry good keys and values. -/
def MapGood (m : Nat → Option Nat) : Prop :=
  ∀ k v, m k = some v → GoodKey k ∧ GoodVal v

/-- The full sequential invariant of the table's single chunk. -/
structure ChunkInv (c : Chunk) (m : Nat → Option Nat) : Prop where
  capPow : ∃ j, 2 ≤ j ∧ c.cap = 2 ^ j
  limitEq : c.occuLimit = occupation_limit c.cap
  occEq : c.occupation = countKeyed c.slots
  occLe : c.occupation ≤ c.occuLimit + 1
  mGood : MapGood m
  slotsInv : SlotsInv c.cap c.slots m

/-- Shape of the old chunk after the resize copy loop has processed its
first `i` slots: processed live slots hold a sentinel, everything else is
untouched. -/
structure ResizeOldInv (c : Chunk) (i : Nat) (o : Chunk) : Prop where
  capEq : o.cap = c.cap
  lenEq : o.slots.length = c.slots.length
  sentinelled : ∀ j, j < i → valOf c.slots j ≠ 0 →
      entryAt o.slots j = (keyOf c.slots j, 1)
  untouchedDead : ∀ j, j < i → valOf c.slots j = 0 →
      entryAt o.slots j = entryAt c.slots j
  untouchedRest : ∀ j, i ≤ j → entryAt o.slots j = entryAt c.slots j

/-- Shape of the new chunk of capacity `cap'` after the resize copy loop
has processed the first `i` old slots: it holds exactly the live entries
among them, with plain (stripped) values. -/
structure ResizeNewInv (c : Chunk) (cap' i : Nat) (n : Chunk) (eff : Nat) : Prop where
  capEq : n.cap = cap'
  occ0 : n.occupation = 0
  limEq : n.occuLimit = occupation_limit cap'
  effEq : eff = countKeyed n.slots
  effLe : countKeyed n.slots ≤ i
  inv : SlotsInv cap' n.slots (copiedMap c i)

/-- `idx &= cap - 1` agrees with `idx % cap` when `cap` is a power of two. -/
theorem land_two_pow_sub_one_eq_mod (x j : Nat) : x &&& (2 ^ j - 1) = x % 2 ^ j := by
  apply Nat.eq_of_testBit_eq
  intro i
  rw [Nat.testBit_and, Nat.testBit_mod_two_pow, Nat.testBit_two_pow_sub_one]
  cases Nat.decLt i j with
  | isTrue h => simp [h]
  | isFalse h => simp [h]

/-! ## Theorems: bookmark dispatch (C1) -/

/-- Clearing the low bit of the odd word `s + 1` (for even `s`) recovers `s`. -/
theorem bump_word_land (s : Nat) (hs : s % 2 = 0) (hlt : s < WORD - 1) :
    (s + 1) &&& (WORD - 2) = s := by
  have hdiv : s / 2 < 2 ^ 63 := by
    have h64 : WORD = 2 ^ 64 := rfl
    omega
  apply Nat.eq_of_testBit_eq
  intro i
  rw [Nat.testBit_and]
  cases i with
  | zero =>
      have h2 : (WORD - 2) % 2 = 0 := by decide
      simp [Nat.testBit_zero, hs, h2]
  | succ i =>
      rw [Nat.testBit_succ, Nat.testBit_succ, Nat.testBit_succ]
      have e1 : (s + 1) / 2 = s / 2 := by omega
      have e2 : (WORD - 2) / 2 = 2 ^ 63 - 1 := by decide
      rw [e1, e2, Nat.testBit_two_pow_sub_one]
      by_cases hi : i < 63
      · simp [hi]
      · have hz : Nat.testBit (s / 2) i = false :=
          Nat.testBit_lt_two_pow
            (lt_of_lt_of_le hdiv (Nat.pow_le_pow_right (by norm_num) (by omega)))
        simp [hz, hi]

/-- **C1** (code-bug evaluation).  A bookmark word written by the bump
allocator (`actual_size + 1`, bit 0 set) decodes with `is_bump = false`, so
the generic free dispatch routes every bump-path object to
`small_heap::free` — the opposite of the claimed routing, and contradicting
`debug_assert!(is_bump)` in `bump_heap::realloc` (bump_heap.rs:251). -/
theorem c1_bump_bookmark_routed_to_small_heap (s : Nat)
    (hs : s % 2 = 0) (hlt : s < WORD - 1) :
    (object_bookmark (bump_bookmark_word s)).1 = s ∧
    (object_bookmark (bump_bookmark_word s)).2 = false ∧
    generic_free_path (bump_bookmark_word s) = .smallHeap := by
  have hland := bump_word_land s hs hlt
  have hmod : (s + 1) % 2 = 1 := by omega
  have hbit : (s + 1) &&& BOOKMARK_TYPE_FLAG_MASK = 1 := by
    show (s + 1) &&& 1 = 1
    rw [Nat.and_one_is_mod, hmod]
  refine ⟨?_, ?_, ?_⟩ <;>
    simp [object_bookmark, bump_bookmark_word, generic_free_path, hland, hbit]

theorem c1_bump_bookmark_routed_to_small_heap_witness :
    (128 : Nat) % 2 = 0 ∧ 128 < WORD - 1 ∧
    generic_free_path (bump_bookmark_word 128) = .smallHeap :=
  ⟨by decide, by decide,
   (c1_bump_bookmark_routed_to_small_heap 128 (by decide) (by decide)).2.2⟩

/-- Supporting fact: the decoder inverts the encoder.  `make_bookmark`
(generic_heap.rs:116-126) tags a bump-path bookmark by setting bit 0, yet
`object_bookmark` reports `is_bump` exactly when bit 0 is clear. -/
theorem object_bookmark_inverts_make_bookmark (b : Nat) (hb : b % 2 = 0) :
    (object_bookmark (make_bookmark_word b true)).2 = false ∧
    (object_bookmark (make_bookmark_word b false)).2 = (true : Bool) := by
  have hmod : (b + 1) % 2 = 1 := by omega
  have hbit : (b + 1) &&& BOOKMARK_TYPE_FLAG_MASK = 1 := by
    show (b + 1) &&& 1 = 1
    rw [Nat.and_one_is_mod, hmod]
  have hbit0 : b &&& BOOKMARK_TYPE_FLAG_MASK = 0 := by
    show b &&& 1 = 0
    rw [Nat.and_one_is_mod, hb]
  constructor <;> simp [object_bookmark, make_bookmark_word, hbit, hbit0]

theorem object_bookmark_inverts_make_bookmark_witness :
    (64 : Nat) % 2 = 0 ∧
    (object_bookmark (make_bookmark_word 64 true)).2 = false :=
  ⟨by decide, (object_bookmark_inverts_make_bookmark 64 (by decide)).1⟩

/-! ## Theorems: generic realloc (C2) -/

/-- **C2.**  The four behaviours of `generic_heap::realloc`: null pointer →
`malloc`; zero size → free and return null; recorded size ≥ request → same
pointer unchanged; otherwise a fresh block is returned carrying the old
contents, and the old block is freed. -/
theorem c2_generic_realloc (h : MiniHeap) (p sz old : Nat)
    (hp0 : p ≠ 0) (hrec : h.allocSize p = some old) (hfresh : p < h.next) :
    (∀ s, generic_realloc h 0 s = h.malloc s) ∧
    generic_realloc h p 0 = (h.free p, 0) ∧
    (sz ≠ 0 → sz ≤ old → generic_realloc h p sz = (h, p)) ∧
    (sz ≠ 0 → old < sz →
      (generic_realloc h p sz).2 = h.next ∧
      (generic_realloc h p sz).2 ≠ p ∧
      (generic_realloc h p sz).1.allocSize h.next = some sz ∧
      (generic_realloc h p sz).1.allocSize p = none ∧
      ∀ i, i < old → (generic_realloc h p sz).1.mem (h.next + i) = h.mem (p + i)) := by
  refine ⟨fun s => by simp [generic_realloc], by simp [generic_realloc, hp0], ?_, ?_⟩
  · intro hsz hle
    simp [generic_realloc, hp0, hsz, MiniHeap.sizeOf, hrec, hle]
  · intro hsz hlt
    have hnge : ¬ h.sizeOf p ≥ sz := by simp [MiniHeap.sizeOf, hrec]; omega
    have hne : p ≠ h.next := by omega
    simp only [generic_realloc, if_neg hp0, if_neg hsz, if_neg hnge]
    refine ⟨rfl, by simpa using hne.symm, ?_, ?_, ?_⟩
    · simp [MiniHeap.malloc, MiniHeap.memcpy, MiniHeap.free, hne.symm]
    · simp [MiniHeap.malloc, MiniHeap.memcpy, MiniHeap.free]
    · intro i hi
      have : h.sizeOf p = old := by simp [MiniHeap.sizeOf, hrec]
      simp [MiniHeap.malloc, MiniHeap.memcpy, MiniHeap.free, this, hi]

theorem c2_generic_realloc_witness :
    ((3 : Nat) ≠ 0 ∧ c2_h0.allocSize 3 = some 2 ∧ 3 < c2_h0.next) ∧
    (generic_realloc c2_h0 3 7).2 = 10 ∧
    (generic_realloc c2_h0 3 7).1.allocSize 3 = none ∧
    (generic_realloc c2_h0 3 7).1.mem (10 + 1) = c2_h0.mem (3 + 1) ∧
    generic_realloc c2_h0 3 2 = (c2_h0, 3) := by
  have H := c2_generic_realloc c2_h0 3 7 2 (by decide) (by decide) (by decide)
  have H2 := c2_generic_realloc c2_h0 3 2 2 (by decide) (by decide) (by decide)
  obtain ⟨e1, _, _, e4, e5⟩ := H.2.2.2 (by decide) (by decide)
  exact ⟨⟨by decide, by decide, by decide⟩, e1, e4, e5 1 (by decide),
    H2.2.2.1 (by decide) (by decide)⟩

/-! ## Theorems: calloc zeroing (C3) and calloc overflow (C10) -/

/-- **C3** (code-bug evaluation).  `lib.rs`'s `nu_calloc` returns a non-null
block whose memory is NOT zero-filled: the zeroing branch requires
`ptr == NULL_PTR`, so a successful allocation skips the `memset`. -/
theorem c3_lib_calloc_skips_zeroing :
    (lib_nu_calloc calloc_h0 1 8).2 ≠ 0 ∧
    (lib_nu_calloc calloc_h0 1 8).1.mem (lib_nu_calloc calloc_h0 1 8).2 = 1 := by
  decide

/-- Supporting fact: the `api.rs` entry point does zero-fill every non-null
block it returns (over the wrapped total length). -/
theorem api_nu_calloc_zero_fills (h : MiniHeap) (nmemb size : Nat)
    (hnext : 0 < h.next) :
    ∀ i, i < nmemb * size % WORD →
      (nu_calloc h nmemb size).1.mem ((nu_calloc h nmemb size).2 + i) = 0 := by
  intro i hi
  have hpos : nmemb * size % WORD ≠ 0 := by omega
  have hne : h.next ≠ 0 := by omega
  simp [nu_calloc, nu_malloc, hpos, MiniHeap.malloc, MiniHeap.memset, hne, hi]

theorem api_nu_calloc_zero_fills_witness :
    0 < calloc_h0.next ∧
    (nu_calloc calloc_h0 3 5).1.mem ((nu_calloc calloc_h0 3 5).2 + 14) = 0 :=
  ⟨by decide, api_nu_calloc_zero_fills calloc_h0 3 5 (by decide) 14 (by decide)⟩

/-- **C10** (amended).  `nu_calloc` requests and zero-fills exactly
`nmemb * size` reduced modulo `2^64`; when that wrapped length is non-zero
the returned pointer is non-null.  At `nmemb = 2^33 + 1`, `size = 2^33` the
wrapped length is `2^33`, strictly smaller than the mathematical product. -/
theorem c10_nu_calloc_wraps (h : MiniHeap) (nmemb size : Nat)
    (hnext : 0 < h.next) (hpos : 0 < nmemb * size % WORD) :
    (nu_calloc h nmemb size).2 = h.next ∧
    (nu_calloc h nmemb size).2 ≠ 0 ∧
    (nu_calloc h nmemb size).1.allocSize h.next = some (nmemb * size % WORD) ∧
    (∀ i, i < nmemb * size % WORD →
      (nu_calloc h nmemb size).1.mem (h.next + i) = 0) ∧
    (2 ^ 33 + 1) * 2 ^ 33 % WORD = 2 ^ 33 ∧ 2 ^ 33 < (2 ^ 33 + 1) * 2 ^ 33 := by
  have hpos' : nmemb * size % WORD ≠ 0 := by omega
  have hne : h.next ≠ 0 := by omega
  refine ⟨?_, ?_, ?_, ?_, by decide, by decide⟩
  · simp [nu_calloc, nu_malloc, hpos', MiniHeap.malloc, MiniHeap.memset, hne]
  · simp [nu_calloc, nu_malloc, hpos', MiniHeap.malloc, MiniHeap.memset, hne]
  · simp [nu_calloc, nu_malloc, hpos', MiniHeap.malloc, MiniHeap.memset, hne]
  · intro i hi
    simp [nu_calloc, nu_malloc, hpos', MiniHeap.malloc, MiniHeap.memset, hne, hi]

theorem c10_nu_calloc_wraps_witness :
    0 < calloc_h0.next ∧ 0 < 3 * 5 % WORD ∧
    (nu_calloc calloc_h0 3 5).2 = calloc_h0.next ∧
    (nu_calloc calloc_h0 3 5).1.allocSize calloc_h0.next = some (3 * 5 % WORD) :=
  ⟨by decide, by decide,
   (c10_nu_calloc_wraps calloc_h0 3 5 (by decide) (by decide)).1,
   (c10_nu_calloc_wraps calloc_h0 3 5 (by decide) (by decide)).2.2.1⟩

/-- **C10** counterexample to the claim's example input: at
`nmemb = size = 2^33` the wrapped length is `0`, `nu_malloc(0)` returns
null, and `nu_calloc` therefore returns null — the claim asserts null is
not returned there. -/
theorem c10_counterexample :
    0 < 2 ^ 33 * 2 ^ 33 ∧ (nu_calloc calloc_h0 (2 ^ 33) (2 ^ 33)).2 = 0 := by
  constructor
  · decide
  · decide

/-! ## Theorems: small-heap free routing (C8) -/

/-- **C8** (amended).  For an in-bounds address with live metadata `m`:
a cross-node free pushes the address to the owning node's pending-free
queue; a same-node free pushes it onto a per-thread size-class free list
for tier `m.tier` — the owning thread's list when that thread is still
registered, the freeing thread's own list otherwise. -/
theorem c8_small_free_routing (heapBase heapUpper shiftBits curNuma curTid addr : Nat)
    (objects : Nat → Option SmallObjectMeta) (threadFreeHas : Nat → Bool)
    (m : SmallObjectMeta) (hlo : heapBase ≤ addr) (hhi : addr ≤ heapUpper)
    (hobj : objects addr = some m) :
    (addr_numa_id heapBase shiftBits addr ≠ curNuma →
      small_free heapBase heapUpper shiftBits curNuma curTid objects threadFreeHas addr
        = .remotePush) ∧
    (addr_numa_id heapBase shiftBits addr = curNuma →
      small_free heapBase heapUpper shiftBits curNuma curTid objects threadFreeHas addr
        = if m.tid = curTid then .localSelf m.tier
          else if threadFreeHas m.tid then .localOwner m.tid m.tier
          else .localFallback m.tier) := by
  have hb : ¬ (addr < heapBase ∨ addr > heapUpper) := by omega
  constructor <;> intro hnode <;>
    simp [small_free, hb, hnode, hobj]

theorem c8_small_free_routing_witness :
    ((0 : Nat) ≤ 2 ^ 19 + 8 ∧ 2 ^ 19 + 8 ≤ 2 ^ 20) ∧
    addr_numa_id 0 19 (2 ^ 19 + 8) ≠ 0 ∧
    small_free 0 (2 ^ 20) 19 0 7
      (fun a => if a = 2 ^ 19 + 8 then some ⟨16, 2 ^ 19 + 8, 1, 3, 42⟩ else none)
      (fun _ => false) (2 ^ 19 + 8) = .remotePush :=
  ⟨⟨by decide, by decide⟩, by decide,
   (c8_small_free_routing 0 (2 ^ 20) 19 0 7 (2 ^ 19 + 8)
     (fun a => if a = 2 ^ 19 + 8 then some ⟨16, 2 ^ 19 + 8, 1, 3, 42⟩ else none)
     (fun _ => false) ⟨16, 2 ^ 19 + 8, 1, 3, 42⟩
     (by decide) (by decide) (by decide)).1 (by decide)⟩

/-- **C8** counterexample to the unconditional claim: a cross-node free of
an address in node 1's arena that is absent from node 1's object map is
silently ignored — nothing is enqueued on the pending-free queue. -/
theorem c8_counterexample :
    addr_numa_id 0 19 (2 ^ 19 + 8) = 1 ∧ (1 : Nat) ≠ 0 ∧
    small_free 0 (2 ^ 20) 19 0 7 (fun _ => none) (fun _ => false) (2 ^ 19 + 8)
      = .remoteIgnore ∧
    SmallFreeAction.remoteIgnore ≠ SmallFreeAction.remotePush := by
  refine ⟨by decide, by decide, by decide, by decide⟩

theorem PagedList.good_new {T} (cap : Nat) : (PagedList.new T cap).Good := by
  refine ⟨by simp [PagedList.new], by simp [PagedList.new], ?_, ?_⟩ <;>
    simp [PagedList.new]

theorem PagedList.toChron_push {T} (s : PagedList T) (f : Nat) (d : T)
    (hne : s.buffers ≠ []) :
    (s.push f d).toChron = s.toChron ++ [(f, d)] := by
  obtain ⟨bufs, cnt, cap⟩ := s
  cases bufs with
  | nil => simp at hne
  | cons b rest =>
      simp only [PagedList.push, PagedList.doPush, PagedList.toChron]
      split <;> simp

theorem PagedList.cap_push {T} (s : PagedList T) (f : Nat) (d : T) :
    (s.push f d).cap = s.cap := by
  obtain ⟨bufs, cnt, cap⟩ := s
  cases bufs with
  | nil => simp [PagedList.push, PagedList.doPush]
  | cons b rest =>
      simp only [PagedList.push, PagedList.doPush]
      split <;> rfl

theorem PagedList.good_push {T} (s : PagedList T) (f : Nat) (d : T)
    (hs : s.Good) (hcap : 1 ≤ s.cap) (hf0 : f ≠ 0) (hf1 : f ≠ 1) :
    (s.push f d).Good := by
  obtain ⟨bufs, cnt, cap⟩ := s
  obtain ⟨hne, hcount, hcapb, hflags⟩ := hs
  cases bufs with
  | nil => simp at hne
  | cons b rest =>
      simp only [PagedList.push, PagedList.doPush]
      simp only at hcap hcount hcapb hflags
      split
      case isTrue h =>
        refine ⟨by simp, ?_, ?_, ?_⟩
        · simp at hcount ⊢
          omega
        · intro b' hb'
          rcases List.mem_cons.1 hb' with rfl | hb'
          · simpa using hcap
          · exact hcapb b' hb'
        · intro b' hb' p hp
          rcases List.mem_cons.1 hb' with rfl | hb'
          · simp only [List.mem_singleton] at hp
            subst hp; exact ⟨hf0, hf1⟩
          · exact hflags b' hb' p hp
      case isFalse h =>
        refine ⟨by simp, ?_, ?_, ?_⟩
        · simp at hcount ⊢
          omega
        · intro b' hb'
          rcases List.mem_cons.1 hb' with rfl | hb'
          · simp only [List.length_append, List.length_singleton]
            omega
          · exact hcapb b' (List.mem_cons_of_mem _ hb')
        · intro b' hb' p hp
          rcases List.mem_cons.1 hb' with rfl | hb'
          · rcases List.mem_append.1 hp with hp | hp
            · exact hflags b (by simp) p hp
            · simp only [List.mem_singleton] at hp
              subst hp; exact ⟨hf0, hf1⟩
          · exact hflags b' (List.mem_cons_of_mem _ hb') p hp

theorem PagedList.popGo_spec {T} :
    ∀ (fuel : Nat) (bufs : List (List (Nat × T))) (cap : Nat),
    bufs.length + (bufs.map List.length).sum ≤ fuel →
    (∀ b ∈ bufs, ∀ p ∈ b, p.1 ≠ 0 ∧ p.1 ≠ 1) →
    (∀ b ∈ bufs, b.length ≤ cap) →
    bufs ≠ [] →
    0 < (bufs.map List.length).sum →
    ∃ x bufs', PagedList.popGo bufs fuel = some (x, bufs') ∧
      bufs'.reverse.flatten ++ [x] = bufs.reverse.flatten ∧
      bufs' ≠ [] ∧
      (bufs'.map List.length).sum + 1 = (bufs.map List.length).sum ∧
      (∀ b ∈ bufs', ∀ p ∈ b, p.1 ≠ 0 ∧ p.1 ≠ 1) ∧
      (∀ b ∈ bufs', b.length ≤ cap) := by
  intro fuel
  induction fuel with
  | zero =>
      intro bufs cap hfuel hflags hcap hne hsum
      cases bufs with
      | nil => simp at hne
      | cons b rest => simp at hfuel
  | succ fuel ih =>
      intro bufs cap hfuel hflags hcap hne hsum
      cases bufs with
      | nil => simp at hne
      | cons b rest =>
          by_cases hb : b = []
          · -- head buffer exhausted: unlink it and continue in the chain
            subst hb
            have hrest : rest ≠ [] := by
              intro h; subst h; simp at hsum
            have hsum' : 0 < (rest.map List.length).sum := by
              simpa using hsum
            have hfuel' : rest.length + (rest.map List.length).sum ≤ fuel := by
              simp at hfuel ⊢; omega
            obtain ⟨x, bufs', h1, h2, h3, h4, h5, h6⟩ :=
              ih rest cap hfuel' (fun b hb => hflags b (by simp [hb]))
                (fun b hb => hcap b (by simp [hb])) hrest hsum'
            refine ⟨x, bufs', ?_, ?_, h3, by simpa using h4, h5, h6⟩
            · simpa [PagedList.popGo, List.isEmpty_iff, hrest] using h1
            · simpa using h2
          · -- non-empty head buffer: take its top slot
            obtain ⟨ys, y, hby⟩ := List.eq_nil_or_concat b |>.resolve_left hb
            rw [List.concat_eq_append] at hby
            subst hby
            have hy : y.1 ≠ 0 ∧ y.1 ≠ 1 :=
              hflags (ys ++ [y]) (by simp) y (by simp)
            refine ⟨y, ys :: rest, ?_, ?_, by simp, ?_, ?_, ?_⟩
            · obtain ⟨f, d⟩ := y
              simp only [PagedList.popGo, List.getLast?_concat, List.dropLast_concat]
              simp only at hy
              simp [hy.2]
            · simp
            · simp
              omega
            · intro b hb p hp
              rcases List.mem_cons.1 hb with rfl | hb
              · exact hflags (b ++ [y]) (by simp) p (List.mem_append_left _ hp)
              · exact hflags b (List.mem_cons_of_mem _ hb) p hp
            · intro b hb
              rcases List.mem_cons.1 hb with rfl | hb
              · have := hcap (b ++ [y]) (by simp)
                simp at this ⊢
                omega
              · exact hcap b (List.mem_cons_of_mem _ hb)

/-- `toChron` is empty exactly when the slot count is zero. -/
theorem PagedList.toChron_eq_nil {T} (s : PagedList T)
    (h : (s.buffers.map List.length).sum = 0) : s.toChron = [] := by
  have hlen : s.toChron.length = (s.buffers.map List.length).sum := by
    simp [PagedList.toChron, List.map_reverse, List.sum_reverse]
  exact List.eq_nil_of_length_eq_zero (by rw [hlen, h])

theorem PagedList.pop_spec_pos {T} (s : PagedList T) (hs : s.Good)
    (hpos : 0 < s.count) :
    ∃ x s', s.pop = some (x, s') ∧ s'.Good ∧
      s'.toChron ++ [x] = s.toChron ∧ s'.count + 1 = s.count ∧ s'.cap = s.cap := by
  obtain ⟨hne, hcount, hcapb, hflags⟩ := hs
  have hsum : 0 < (s.buffers.map List.length).sum := hcount ▸ hpos
  obtain ⟨x, bufs', h1, h2, h3, h4, h5, h6⟩ :=
    PagedList.popGo_spec s.fuelOf s.buffers s.cap le_rfl hflags hcapb hne hsum
  refine ⟨x, { s with buffers := bufs', count := s.count - 1 }, ?_, ?_, ?_,
    by show s.count - 1 + 1 = s.count; omega, rfl⟩
  · simp [PagedList.pop, Nat.pos_iff_ne_zero.1 hpos, h1]
  · refine ⟨h3, ?_, h6, h5⟩
    show s.count - 1 = (bufs'.map List.length).sum
    omega
  · simpa [PagedList.toChron] using h2

theorem PagedList.pop_spec_zero {T} (s : PagedList T) (hs : s.Good)
    (hzero : s.count = 0) : s.pop = none ∧ s.toChron = [] := by
  refine ⟨by simp [PagedList.pop, hzero], ?_⟩
  exact PagedList.toChron_eq_nil s (by rw [← hs.countEq]; exact hzero)

theorem PagedList.popAll_spec {T} :
    ∀ (fuel : Nat) (s : PagedList T), s.Good → s.count ≤ fuel →
    s.popAll fuel = s.toChron.reverse := by
  intro fuel
  induction fuel with
  | zero =>
      intro s hs hle
      have := PagedList.pop_spec_zero s hs (by omega)
      simp [PagedList.popAll, this.2]
  | succ fuel ih =>
      intro s hs hle
      rcases Nat.eq_zero_or_pos s.count with hzero | hpos
      · have := PagedList.pop_spec_zero s hs hzero
        simp [PagedList.popAll, this.1, this.2]
      · obtain ⟨x, s', h1, h2, h3, h4, _⟩ := PagedList.pop_spec_pos s hs hpos
        have := ih s' h2 (by omega)
        simp [PagedList.popAll, h1, this, ← h3]

theorem PagedList.pushAll_spec {T} :
    ∀ (xs : List (Nat × T)) (s : PagedList T), s.Good → 1 ≤ s.cap →
    (∀ p ∈ xs, p.1 ≠ 0 ∧ p.1 ≠ 1) →
    (s.pushAll xs).Good ∧ (s.pushAll xs).toChron = s.toChron ++ xs ∧
      (s.pushAll xs).cap = s.cap := by
  intro xs
  induction xs with
  | nil => intro s hs hcap _; exact ⟨hs, by simp [PagedList.pushAll], rfl⟩
  | cons x xs ih =>
      intro s hs hcap hflags
      have hx := hflags x (by simp)
      have hgood := PagedList.good_push s x.1 x.2 hs hcap hx.1 hx.2
      have hcap' : 1 ≤ (s.push x.1 x.2).cap := by
        rw [PagedList.cap_push]; exact hcap
      have hstep : PagedList.pushAll s (x :: xs) = PagedList.pushAll (s.push x.1 x.2) xs := by
        simp [PagedList.pushAll]
      obtain ⟨g, e, c⟩ := ih (s.push x.1 x.2) hgood hcap'
        (fun p hp => hflags p (by simp [hp]))
      refine ⟨hstep ▸ g, ?_, by rw [hstep, c, PagedList.cap_push]⟩
      rw [hstep, e, PagedList.toChron_push s x.1 x.2 hs.nonempty]
      simp

/-- **C7.**  Sequential round trip of the paged list: pushing the pairs of
`xs` (whose flags avoid the reserved `EMPTY_SLOT = 0` and
`SENTINEL_SLOT = 1`) into a fresh list and then popping until the list
reports empty returns exactly the pushed pairs, newest first — in
particular the popped multiset equals the pushed multiset. -/
theorem c7_paged_list_round_trip {T : Type} (cap : Nat) (xs : List (Nat × T))
    (hcap : 1 ≤ cap) (hx : ∀ p ∈ xs, p.1 ≠ 0 ∧ p.1 ≠ 1) :
    (((PagedList.new T cap).pushAll xs).popAll
        ((PagedList.new T cap).pushAll xs).count) = xs.reverse ∧
    ((((PagedList.new T cap).pushAll xs).popAll
        ((PagedList.new T cap).pushAll xs).count)).Perm xs := by
  obtain ⟨g, e, c⟩ := PagedList.pushAll_spec xs (PagedList.new T cap)
    (PagedList.good_new cap) hcap hx
  have echron : ((PagedList.new T cap).pushAll xs).toChron = xs := by
    simpa [PagedList.toChron, PagedList.new] using e
  have h := PagedList.popAll_spec ((PagedList.new T cap).pushAll xs).count
    ((PagedList.new T cap).pushAll xs) g le_rfl
  rw [echron] at h
  exact ⟨h, h ▸ (xs.reverse_perm)⟩

theorem c7_paged_list_round_trip_witness :
    1 ≤ 2 ∧ (∀ p ∈ [(5, 10), (7, 20), (9, 30)], p.1 ≠ 0 ∧ p.1 ≠ 1) ∧
    (((PagedList.new Nat 2).pushAll [(5, 10), (7, 20), (9, 30)]).popAll
        ((PagedList.new Nat 2).pushAll [(5, 10), (7, 20), (9, 30)]).count)
      = [(9, 30), (7, 20), (5, 10)] :=
  ⟨by decide, by decide,
   (c7_paged_list_round_trip 2 [(5, 10), (7, 20), (9, 30)]
      (by decide) (by decide)).1.trans (by decide)⟩

/-! ## Theorems: hash-table groundwork — probe arithmetic, value parsing,
slot bookkeeping -/

theorem land_cap (j cap : Nat) (hcap : cap = 2 ^ j) (x : Nat) :
    x &&& (cap - 1) = x % cap := by
  subst hcap; exact land_two_pow_sub_one_eq_mod x j

theorem pIdx_lt (cap h t : Nat) (hcap : 0 < cap) : pIdx cap h t < cap :=
  Nat.mod_lt _ hcap

theorem probeDist_lt (cap h i : Nat) (hcap : 0 < cap) : probeDist cap h i < cap :=
  Nat.mod_lt _ hcap

theorem pIdx_zero (cap h : Nat) (hh : h < cap) : pIdx cap h 0 = h := by
  simp [pIdx, Nat.mod_eq_of_lt hh]

theorem pIdx_succ (cap h t : Nat) : (pIdx cap h t + 1) % cap = pIdx cap h (t + 1) := by
  simp [pIdx, Nat.mod_add_mod, Nat.add_assoc]

theorem pIdx_probeDist (cap h i : Nat) (hh : h < cap) (hi : i < cap) :
    pIdx cap h (probeDist cap h i) = i := by
  unfold pIdx probeDist
  rw [Nat.add_mod_mod]
  have h2 : h + (i + cap - h) = cap + i := by omega
  rw [h2, Nat.add_mod_left, Nat.mod_eq_of_lt hi]

theorem probeDist_pIdx (cap h t : Nat) (hh : h < cap) (ht : t < cap) :
    probeDist cap h (pIdx cap h t) = t := by
  unfold pIdx probeDist
  rcases Nat.lt_or_ge (h + t) cap with hlt | hge
  · rw [Nat.mod_eq_of_lt hlt]
    have : h + t + cap - h = t + cap := by omega
    rw [this, Nat.add_mod_right, Nat.mod_eq_of_lt ht]
  · have hsub : (h + t) % cap = h + t - cap := by
      rw [Nat.mod_eq_sub_mod hge, Nat.mod_eq_of_lt (by omega)]
    rw [hsub]
    have : h + t - cap + cap - h = t := by omega
    rw [this, Nat.mod_eq_of_lt ht]

theorem pIdx_inj (cap h t u : Nat) (hh : h < cap) (ht : t < cap) (hu : u < cap)
    (he : pIdx cap h t = pIdx cap h u) : t = u := by
  have h1 := probeDist_pIdx cap h t hh ht
  have h2 := probeDist_pIdx cap h u hh hu
  rw [← h1, ← h2, he]

theorem parse_good (w : Nat) (h2 : 2 ≤ w) (hlt : w < 2 ^ 63) :
    parseValue w = .val w := by
  have hne : w ≠ 0 := by omega
  have hact : w &&& VAL_BIT_MASK = w := by
    have := land_two_pow_sub_one_eq_mod w 63
    rw [VAL_BIT_MASK, this, Nat.mod_eq_of_lt hlt]
  have hflag : w &&& INV_BIT_MASK = 0 := by
    rw [INV_BIT_MASK, Nat.and_two_pow, Nat.testBit_lt_two_pow hlt]
    rfl
  simp only [parseValue, hne, if_false, hact, hflag]
  have : ¬ w = 1 := by omega
  simp [this]

theorem lor_two_pow_63 (w : Nat) (hlt : w < 2 ^ 63) :
    w ||| INV_BIT_MASK = w + 2 ^ 63 := by
  apply Nat.eq_of_testBit_eq
  intro i
  rw [INV_BIT_MASK, Nat.testBit_or, Nat.add_comm w (2 ^ 63)]
  rcases Nat.lt_trichotomy i 63 with hi | rfl | hi
  · rw [Nat.testBit_two_pow_add_gt hi, Nat.testBit_two_pow_of_ne (by omega),
      Bool.or_false]
  · rw [Nat.testBit_two_pow_add_eq, Nat.testBit_two_pow_self,
      Nat.testBit_lt_two_pow hlt]
    rfl
  · have hw : w < 2 ^ i := lt_of_lt_of_le hlt (Nat.pow_le_pow_right (by norm_num) (by omega))
    have h1 : Nat.testBit w i = false := Nat.testBit_lt_two_pow hw
    have h2 : Nat.testBit (2 ^ 63) i = false := Nat.testBit_two_pow_of_ne (by omega)
    have h3 : Nat.testBit (2 ^ 63 + w) i = false := by
      apply Nat.testBit_lt_two_pow
      have hp : (2:Nat) ^ 63 < 2 ^ i := by
        exact Nat.pow_lt_pow_right (by norm_num) (by omega)
      have hp2 : (2:Nat) ^ 63 + 2 ^ 63 ≤ 2 ^ i := by
        have h64 : (2:Nat) ^ 64 ≤ 2 ^ i := Nat.pow_le_pow_right (by norm_num) (by omega)
        calc (2:Nat) ^ 63 + 2 ^ 63 = 2 ^ 64 := by norm_num
        _ ≤ 2 ^ i := h64
      omega
    rw [h1, h2, h3]
    rfl

theorem parse_zero : parseValue 0 = .empty := rfl

theorem parse_one : parseValue 1 = .sentinel := by decide

theorem entryAt_lt {slots : List (Nat × Nat)} {i : Nat} (h : i < slots.length) :
    entryAt slots i = slots[i] := by
  simp [entryAt, List.getD_eq_getElem?_getD, List.getElem?_eq_getElem h]

theorem entryAt_set_self {slots : List (Nat × Nat)} {i : Nat} (h : i < slots.length)
    (x : Nat × Nat) : entryAt (slots.set i x) i = x := by
  rw [entryAt_lt (by simpa using h)]
  simp [h]

theorem entryAt_set_ne {slots : List (Nat × Nat)} {i j : Nat} (h : i ≠ j)
    (x : Nat × Nat) : entryAt (slots.set i x) j = entryAt slots j := by
  simp [entryAt, List.getD_eq_getElem?_getD, List.getElem?_set_ne h]

theorem entryAt_replicate (n i : Nat) :
    entryAt (List.replicate n ((0 : Nat), (0 : Nat))) i = (0, 0) := by
  rcases Nat.lt_or_ge i n with h | h
  · rw [entryAt_lt (by simpa using h)]
    simp
  · have hlen : (List.replicate n ((0 : Nat), (0 : Nat))).length ≤ i := by simpa using h
    simp [entryAt, List.getD_eq_getElem?_getD, List.getElem?_eq_none hlen]

theorem countKeyed_set (slots : List (Nat × Nat)) :
    ∀ (i : Nat) (x : Nat × Nat), i < slots.length →
    countKeyed (slots.set i x) + (if keyOf slots i ≠ 0 then 1 else 0)
      = countKeyed slots + (if x.1 ≠ 0 then 1 else 0) := by
  induction slots with
  | nil => intro i x h; simp at h
  | cons a rest ih =>
      intro i x h
      cases i with
      | zero =>
          simp only [List.set_cons_zero, countKeyed, List.countP_cons]
          have hk : keyOf (a :: rest) 0 = a.1 := rfl
          rw [hk]
          by_cases h0 : a.1 = 0 <;> by_cases h1 : x.1 = 0 <;>
            simp [h0, h1]
      | succ i =>
          have := ih i x (by simpa using h)
          simp only [List.set_cons_succ, countKeyed, List.countP_cons] at this ⊢
          have hk : keyOf (a :: rest) (i + 1) = keyOf rest i := by
            simp [keyOf, entryAt]
          rw [hk]
          omega

theorem countKeyed_lt_ex (slots : List (Nat × Nat))
    (h : countKeyed slots < slots.length) :
    ∃ i, i < slots.length ∧ keyOf slots i = 0 := by
  by_contra hc
  push_neg at hc
  have : countKeyed slots = slots.length := by
    rw [countKeyed, List.countP_eq_length]
    intro a ha
    obtain ⟨i, hi, rfl⟩ := List.mem_iff_getElem.1 ha
    have := hc i hi
    simp only [keyOf, entryAt_lt hi] at this
    simpa using this
  omega

/-! ## Theorems: hash-table probe characterisation -/

theorem modifyGo_congr_idx (cap j key : Nat) (hcap : cap = 2 ^ j) (op : ModOp)
    (slots : List (Nat × Nat)) (idx₁ idx₂ : Nat) (r : Option Nat) (fuel : Nat)
    (h : idx₁ % cap = idx₂ % cap) :
    modifyGo cap key op slots idx₁ r fuel = modifyGo cap key op slots idx₂ r fuel := by
  cases fuel with
  | zero => rfl
  | succ fuel =>
      simp only [modifyGo]
      rw [land_cap j cap hcap idx₁, land_cap j cap hcap idx₂, h]

theorem modifyGo_skip_step (cap j key : Nat) (hcap : cap = 2 ^ j)
    (op : ModOp) (slots : List (Nat × Nat)) (idx : Nat) (r : Option Nat) (fuel : Nat)
    (hbor : (keyOf slots (idx % cap) ≠ key ∧ keyOf slots (idx % cap) ≠ 0) ∨
            (keyOf slots (idx % cap) = key ∧ valOf slots (idx % cap) = 0)) :
    modifyGo cap key op slots idx r (fuel + 1)
      = modifyGo cap key op slots (idx % cap + 1) r fuel := by
  simp only [modifyGo]
  rw [land_cap j cap hcap idx]
  rcases hbor with ⟨h1, h2⟩ | ⟨h1, h2⟩
  · rw [if_neg h1, if_neg h2]
  · rw [if_pos h1, h2, parse_zero]

theorem modifyGo_skip_range (cap j key : Nat) (hcap : cap = 2 ^ j) (hcappos : 0 < cap)
    (op : ModOp) (slots : List (Nat × Nat)) (r : Option Nat) (h : Nat) :
    ∀ (steps t idx fuel : Nat),
    idx % cap = pIdx cap h t →
    (∀ u, u < steps →
      (keyOf slots (pIdx cap h (t + u)) ≠ key ∧ keyOf slots (pIdx cap h (t + u)) ≠ 0) ∨
      (keyOf slots (pIdx cap h (t + u)) = key ∧ valOf slots (pIdx cap h (t + u)) = 0)) →
    modifyGo cap key op slots idx r (steps + fuel)
      = modifyGo cap key op slots (pIdx cap h (t + steps)) r fuel := by
  intro steps
  induction steps with
  | zero =>
      intro t idx fuel hidx _
      rw [Nat.zero_add]
      apply modifyGo_congr_idx cap j key hcap
      rw [hidx, Nat.add_zero, Nat.mod_eq_of_lt (pIdx_lt cap h t hcappos)]
  | succ steps ih =>
      intro t idx fuel hidx hbor
      have hb0 := hbor 0 (by omega)
      rw [Nat.add_zero] at hb0
      rw [← hidx] at hb0
      have hstep := modifyGo_skip_step cap j key hcap op slots idx r
        (steps + fuel) hb0
      rw [show steps + 1 + fuel = steps + fuel + 1 by omega, hstep]
      have hidx' : (idx % cap + 1) % cap = pIdx cap h (t + 1) := by
        rw [hidx, pIdx_succ]
      have := ih (t + 1) (idx % cap + 1) fuel hidx'
        (fun u hu => by
          have := hbor (u + 1) (by omega)
          rw [show t + (u + 1) = t + 1 + u by omega] at this
          exact this)
      rw [show t + 1 + steps = t + (steps + 1) by omega] at this
      exact this

theorem modifyGo_insert_virgin (cap j key v : Nat) (hcap : cap = 2 ^ j)
    (hkey : key ≠ 0) (op : ModOp) (hop : op = .insert v ∨ op = .attemptInsert v)
    (slots : List (Nat × Nat)) (idx : Nat) (r : Option Nat) (fuel : Nat)
    (hk0 : keyOf slots (idx % cap) = 0) (hv0 : valOf slots (idx % cap) = 0) :
    modifyGo cap key op slots idx r (fuel + 1)
      = ((match r with
          | some rr => (.replaced rr, idx % cap)
          | none => (.done (idx % cap), idx % cap)), slots.set (idx % cap) (key, v)) := by
  simp only [modifyGo]
  rw [land_cap j cap hcap idx]
  have hne : ¬ keyOf slots (idx % cap) = key := by
    rw [hk0]; exact fun hh => hkey hh.symm
  rcases hop with rfl | rfl <;> rw [if_neg hne, if_pos hk0, hv0] <;> simp

theorem modifyGo_empty_virgin (cap j key : Nat) (hcap : cap = 2 ^ j)
    (hkey : key ≠ 0)
    (slots : List (Nat × Nat)) (idx : Nat) (r : Option Nat) (fuel : Nat)
    (hk0 : keyOf slots (idx % cap) = 0) :
    modifyGo cap key .empty slots idx r (fuel + 1)
      = ((.fail 0, idx % cap), slots) := by
  simp only [modifyGo]
  rw [land_cap j cap hcap idx]
  have hne : ¬ keyOf slots (idx % cap) = key := by
    rw [hk0]; exact fun hh => hkey hh.symm
  rw [if_neg hne, if_pos hk0]

theorem modifyGo_live_insert (cap j key v w : Nat) (hcap : cap = 2 ^ j)
    (slots : List (Nat × Nat)) (idx : Nat) (r : Option Nat) (fuel : Nat)
    (hk : keyOf slots (idx % cap) = key) (hw : valOf slots (idx % cap) = w)
    (h2 : 2 ≤ w) (hlt : w < 2 ^ 63) :
    modifyGo cap key (.insert v) slots idx r (fuel + 1)
      = modifyGo cap key (.insert v) (slots.set (idx % cap) (key, 0))
          (idx % cap + 1) (some w) fuel := by
  simp only [modifyGo]
  rw [land_cap j cap hcap idx, hk, hw, if_pos rfl, parse_good w h2 hlt]

theorem modifyGo_live_empty (cap j key w : Nat) (hcap : cap = 2 ^ j)
    (slots : List (Nat × Nat)) (idx : Nat) (r : Option Nat) (fuel : Nat)
    (hk : keyOf slots (idx % cap) = key) (hw : valOf slots (idx % cap) = w)
    (h2 : 2 ≤ w) (hlt : w < 2 ^ 63) :
    modifyGo cap key .empty slots idx r (fuel + 1)
      = ((.replaced w, idx % cap), slots.set (idx % cap) (key, 0)) := by
  simp only [modifyGo]
  rw [land_cap j cap hcap idx, hk, hw, if_pos rfl, parse_good w h2 hlt]

theorem getGo_congr_idx (cap j key : Nat) (hcap : cap = 2 ^ j)
    (slots : List (Nat × Nat)) (idx₁ idx₂ : Nat) (fuel : Nat)
    (h : idx₁ % cap = idx₂ % cap) :
    getGo cap key slots idx₁ fuel = getGo cap key slots idx₂ fuel := by
  cases fuel with
  | zero => rfl
  | succ fuel =>
      simp only [getGo]
      rw [land_cap j cap hcap idx₁, land_cap j cap hcap idx₂, h]

theorem getGo_skip_step (cap j key : Nat) (hcap : cap = 2 ^ j) (hkey : key ≠ 0)
    (slots : List (Nat × Nat)) (idx : Nat) (fuel : Nat)
    (hbor : (keyOf slots (idx % cap) ≠ key ∧ keyOf slots (idx % cap) ≠ 0) ∨
            (keyOf slots (idx % cap) = key ∧ valOf slots (idx % cap) = 0)) :
    getGo cap key slots idx (fuel + 1) = getGo cap key slots (idx % cap + 1) fuel := by
  simp only [getGo]
  rw [land_cap j cap hcap idx]
  rcases hbor with ⟨h1, h2⟩ | ⟨h1, h2⟩
  · rw [if_neg h1, if_neg h2]
  · rw [if_pos h1, h2, parse_zero]
    have hne : ¬ keyOf slots (idx % cap) = 0 := by rw [h1]; exact hkey
    rw [if_neg hne]

theorem getGo_skip_range (cap j key : Nat) (hcap : cap = 2 ^ j) (hcappos : 0 < cap)
    (hkey : key ≠ 0) (slots : List (Nat × Nat)) (h : Nat) :
    ∀ (steps t idx fuel : Nat),
    idx % cap = pIdx cap h t →
    (∀ u, u < steps →
      (keyOf slots (pIdx cap h (t + u)) ≠ key ∧ keyOf slots (pIdx cap h (t + u)) ≠ 0) ∨
      (keyOf slots (pIdx cap h (t + u)) = key ∧ valOf slots (pIdx cap h (t + u)) = 0)) →
    getGo cap key slots idx (steps + fuel)
      = getGo cap key slots (pIdx cap h (t + steps)) fuel := by
  intro steps
  induction steps with
  | zero =>
      intro t idx fuel hidx _
      rw [Nat.zero_add]
      apply getGo_congr_idx cap j key hcap
      rw [hidx, Nat.add_zero, Nat.mod_eq_of_lt (pIdx_lt cap h t hcappos)]
  | succ steps ih =>
      intro t idx fuel hidx hbor
      have hb0 := hbor 0 (by omega)
      rw [Nat.add_zero] at hb0
      rw [← hidx] at hb0
      have hstep := getGo_skip_step cap j key hcap hkey slots idx (steps + fuel) hb0
      rw [show steps + 1 + fuel = steps + fuel + 1 by omega, hstep]
      have hidx' : (idx % cap + 1) % cap = pIdx cap h (t + 1) := by
        rw [hidx, pIdx_succ]
      have := ih (t + 1) (idx % cap + 1) fuel hidx'
        (fun u hu => by
          have := hbor (u + 1) (by omega)
          rw [show t + (u + 1) = t + 1 + u by omega] at this
          exact this)
      rw [show t + 1 + steps = t + (steps + 1) by omega] at this
      exact this

theorem getGo_virgin (cap j key : Nat) (hcap : cap = 2 ^ j) (hkey : key ≠ 0)
    (slots : List (Nat × Nat)) (idx : Nat) (fuel : Nat)
    (hk0 : keyOf slots (idx % cap) = 0) :
    getGo cap key slots idx (fuel + 1) = (.empty, 0) := by
  simp only [getGo]
  rw [land_cap j cap hcap idx]
  have hne : ¬ keyOf slots (idx % cap) = key := by
    rw [hk0]; exact fun hh => hkey hh.symm
  rw [if_neg hne, if_pos hk0]

theorem getGo_live (cap j key w : Nat) (hcap : cap = 2 ^ j)
    (slots : List (Nat × Nat)) (idx : Nat) (fuel : Nat)
    (hk : keyOf slots (idx % cap) = key) (hw : valOf slots (idx % cap) = w)
    (h2 : 2 ≤ w) (hlt : w < 2 ^ 63) :
    getGo cap key slots idx (fuel + 1) = (.val w, idx % cap) := by
  simp only [getGo]
  rw [land_cap j cap hcap idx, hk, hw, if_pos rfl, parse_good w h2 hlt]

/-- In a slot array with a free slot, the probe from any home finds a first
virgin offset. -/
theorem first_virgin (cap : Nat) (hpos : 0 < cap)
    (slots : List (Nat × Nat)) (hlen : slots.length = cap)
    (hole : countKeyed slots < cap) (h : Nat) (hh : h < cap) :
    ∃ dv, dv < cap ∧ keyOf slots (pIdx cap h dv) = 0 ∧
      ∀ t, t < dv → keyOf slots (pIdx cap h t) ≠ 0 := by
  obtain ⟨i, hi, hk⟩ := countKeyed_lt_ex slots (by rw [hlen]; exact hole)
  rw [hlen] at hi
  have hwit : keyOf slots (pIdx cap h (probeDist cap h i)) = 0 := by
    rw [pIdx_probeDist cap h i hh hi]; exact hk
  have hex : ∃ t, keyOf slots (pIdx cap h t) = 0 := ⟨probeDist cap h i, hwit⟩
  refine ⟨Nat.find hex, ?_, Nat.find_spec hex, fun t ht => Nat.find_min hex ht⟩
  exact lt_of_le_of_lt (Nat.find_min' hex hwit) (probeDist_lt cap h i hpos)

/-- Probe-window "boring" condition below the first virgin when the key has
no live slot in the window. -/
theorem boring_window (cap : Nat) (hpos : 0 < cap)
    (slots : List (Nat × Nat)) (key : Nat) (h : Nat) (dv : Nat)
    (hmin : ∀ t, t < dv → keyOf slots (pIdx cap h t) ≠ 0)
    (hnolive : ∀ i, i < cap → keyOf slots i = key → valOf slots i = 0) :
    ∀ u, u < dv →
      (keyOf slots (pIdx cap h u) ≠ key ∧ keyOf slots (pIdx cap h u) ≠ 0) ∨
      (keyOf slots (pIdx cap h u) = key ∧ valOf slots (pIdx cap h u) = 0) := by
  intro u hu
  by_cases hk : keyOf slots (pIdx cap h u) = key
  · exact Or.inr ⟨hk, hnolive _ (pIdx_lt cap h u hpos) hk⟩
  · exact Or.inl ⟨hk, hmin u hu⟩

/-- If `m key = none`, no slot with that key is live. -/
theorem no_live_of_none (cap : Nat) (slots : List (Nat × Nat))
    (m : Nat → Option Nat) (hS : SlotsInv cap slots m) (key : Nat)
    (hmk : m key = none) :
    ∀ i, i < cap → keyOf slots i = key → valOf slots i = 0 := by
  intro i hi hk
  by_contra hv
  have := (hS.liveOk i hi hv).2
  rw [hk, hmk] at this
  cases this

/-- `modify_entry` with an insert-type op and an absent key: the pair is
written to the first virgin slot on the probe path and `Done` is returned. -/
theorem modify_insert_none (cap j key v : Nat) (hcap : cap = 2 ^ j)
    (slots : List (Nat × Nat)) (m : Nat → Option Nat)
    (hS : SlotsInv cap slots m) (hkey : key ≠ 0)
    (hole : countKeyed slots < cap) (hmk : m key = none)
    (op : ModOp) (hop : op = .insert v ∨ op = .attemptInsert v) :
    ∃ i', i' < cap ∧ keyOf slots i' = 0 ∧
      (∀ t, t < probeDist cap (key % cap) i' →
        keyOf slots (pIdx cap (key % cap) t) ≠ 0) ∧
      modifyGo cap key op slots key none (cap + 1)
        = ((.done i', i'), slots.set i' (key, v)) := by
  have hpos : 0 < cap := by rw [hcap]; exact Nat.two_pow_pos j
  have hh : key % cap < cap := Nat.mod_lt _ hpos
  obtain ⟨dv, hdv, hvirgin, hmin⟩ :=
    first_virgin cap hpos slots hS.lenEq hole (key % cap) hh
  have hbor := boring_window cap hpos slots key (key % cap) dv hmin
    (no_live_of_none cap slots m hS key hmk)
  have hidx0 : key % cap = pIdx cap (key % cap) 0 :=
    (pIdx_zero cap (key % cap) hh).symm
  have hskip := modifyGo_skip_range cap j key hcap hpos op slots none (key % cap)
    dv 0 key (cap + 1 - dv) hidx0
    (fun u hu => by rw [Nat.zero_add]; exact hbor u hu)
  rw [Nat.zero_add] at hskip
  have hfuel : dv + (cap + 1 - dv) = cap + 1 := by omega
  rw [hfuel] at hskip
  have hmod : pIdx cap (key % cap) dv % cap = pIdx cap (key % cap) dv :=
    Nat.mod_eq_of_lt (pIdx_lt cap (key % cap) dv hpos)
  have hterm := modifyGo_insert_virgin cap j key v hcap hkey op hop slots
    (pIdx cap (key % cap) dv) none (cap - dv)
    (by rw [hmod]; exact hvirgin)
    (by rw [hmod]; exact hS.keyZero _ (pIdx_lt cap (key % cap) dv hpos) hvirgin)
  have hfuel2 : cap - dv + 1 = cap + 1 - dv := by omega
  rw [hfuel2] at hterm
  refine ⟨pIdx cap (key % cap) dv, pIdx_lt cap (key % cap) dv hpos, hvirgin, ?_, ?_⟩
  · intro t ht
    rw [probeDist_pIdx cap (key % cap) dv hh hdv] at ht
    exact hmin t ht
  · rw [hskip, hterm, hmod]

/-- `modify_entry` with `Insert` and a present key: the old live slot is
tombstoned, the pair is written to the first virgin slot, `Replaced` is
returned. -/
theorem modify_insert_some (cap j key v w : Nat) (hcap : cap = 2 ^ j)
    (slots : List (Nat × Nat)) (m : Nat → Option Nat)
    (hS : SlotsInv cap slots m) (hmg : MapGood m) (hkey : key ≠ 0)
    (hole : countKeyed slots < cap) (hmk : m key = some w) :
    ∃ i₁ i', i₁ < cap ∧ i' < cap ∧ i₁ ≠ i' ∧
      keyOf slots i₁ = key ∧ valOf slots i₁ = w ∧ keyOf slots i' = 0 ∧
      (∀ t, t < probeDist cap (key % cap) i' →
        keyOf slots (pIdx cap (key % cap) t) ≠ 0) ∧
      modifyGo cap key (.insert v) slots key none (cap + 1)
        = ((.replaced w, i'), (slots.set i₁ (key, 0)).set i' (key, v)) := by
  have hpos : 0 < cap := by rw [hcap]; exact Nat.two_pow_pos j
  have hh : key % cap < cap := Nat.mod_lt _ hpos
  obtain ⟨hw2, hwlt⟩ : 2 ≤ w ∧ w < 2 ^ 63 := (hmg key w hmk).2
  obtain ⟨i₁, hi₁, hk₁, hv₁⟩ := hS.complete key w hmk
  have hlive₁ : valOf slots i₁ ≠ 0 := by rw [hv₁]; omega
  have hhome : keyOf slots i₁ % cap = key % cap := by rw [hk₁]
  set t₁ := probeDist cap (key % cap) i₁ with ht₁def
  have ht₁ : t₁ < cap := probeDist_lt cap (key % cap) i₁ hpos
  have hpt₁ : pIdx cap (key % cap) t₁ = i₁ := pIdx_probeDist cap (key % cap) i₁ hh hi₁
  have hreach₁ : ∀ t, t < t₁ → keyOf slots (pIdx cap (key % cap) t) ≠ 0 := by
    intro t ht
    have := hS.reach i₁ hi₁ hlive₁ t (by rw [hhome]; exact ht)
    rw [hhome] at this
    exact this
  obtain ⟨dv, hdv, hvirgin, hmin⟩ :=
    first_virgin cap hpos slots hS.lenEq hole (key % cap) hh
  have ht₁dv : t₁ < dv := by
    rcases Nat.lt_trichotomy t₁ dv with h1 | rfl | h1
    · exact h1
    · rw [hpt₁, hk₁] at hvirgin; exact absurd hvirgin hkey
    · exact absurd hvirgin (hreach₁ dv h1)
  -- no other live slot for the key in the window before t₁
  have hnolive₁ : ∀ u, u < t₁ → keyOf slots (pIdx cap (key % cap) u) = key →
      valOf slots (pIdx cap (key % cap) u) = 0 := by
    intro u hu hk
    by_contra hv
    have := hS.uniqLive _ i₁ (pIdx_lt cap (key % cap) u hpos) hi₁ hv hlive₁
      (by rw [hk, hk₁])
    rw [← hpt₁] at this
    have := pIdx_inj cap (key % cap) u t₁ hh (by omega) ht₁ this
    omega
  have hbor₁ : ∀ u, u < t₁ →
      (keyOf slots (pIdx cap (key % cap) u) ≠ key ∧
        keyOf slots (pIdx cap (key % cap) u) ≠ 0) ∨
      (keyOf slots (pIdx cap (key % cap) u) = key ∧
        valOf slots (pIdx cap (key % cap) u) = 0) := by
    intro u hu
    by_cases hk : keyOf slots (pIdx cap (key % cap) u) = key
    · exact Or.inr ⟨hk, hnolive₁ u hu hk⟩
    · exact Or.inl ⟨hk, hreach₁ u hu⟩
  have hidx0 : key % cap = pIdx cap (key % cap) 0 :=
    (pIdx_zero cap (key % cap) hh).symm
  -- skip to t₁
  have hskip₁ := modifyGo_skip_range cap j key hcap hpos (.insert v) slots none
    (key % cap) t₁ 0 key (cap + 1 - t₁) hidx0
    (fun u hu => by rw [Nat.zero_add]; exact hbor₁ u hu)
  rw [Nat.zero_add] at hskip₁
  rw [show t₁ + (cap + 1 - t₁) = cap + 1 by omega] at hskip₁
  -- tombstone step at t₁
  have hmod₁ : pIdx cap (key % cap) t₁ % cap = pIdx cap (key % cap) t₁ :=
    Nat.mod_eq_of_lt (pIdx_lt cap (key % cap) t₁ hpos)
  have hstep := modifyGo_live_insert cap j key v w hcap slots
    (pIdx cap (key % cap) t₁) none (cap - t₁)
    (by rw [hmod₁, hpt₁]; exact hk₁) (by rw [hmod₁, hpt₁]; exact hv₁) hw2 hwlt
  rw [show cap - t₁ + 1 = cap + 1 - t₁ by omega] at hstep
  set slots₁ := slots.set i₁ (key, 0) with hslots₁
  have hsetEq : (slots.set (pIdx cap (key % cap) t₁ % cap) (key, 0)) = slots₁ := by
    rw [hmod₁, hpt₁]
  -- keys are unchanged by the tombstone
  have hkeys₁ : ∀ i, keyOf slots₁ i = keyOf slots i := by
    intro i
    by_cases hi : i = i₁
    · subst hi
      rcases Nat.lt_or_ge i slots.length with hlt | hge
      · rw [hslots₁, keyOf, entryAt_set_self hlt, ← hk₁, keyOf, entryAt_lt hlt]
      · rw [hslots₁, keyOf, keyOf, entryAt, entryAt,
          List.getD_eq_getElem?_getD, List.getD_eq_getElem?_getD,
          List.getElem?_eq_none (by simpa using hge),
          List.getElem?_eq_none (by simpa using hge)]
    · rw [hslots₁, keyOf, keyOf, entryAt_set_ne (fun hh' => hi hh'.symm)]
  -- after the tombstone, skip to dv on slots₁
  have hbor₂ : ∀ u, u < dv - (t₁ + 1) →
      (keyOf slots₁ (pIdx cap (key % cap) (t₁ + 1 + u)) ≠ key ∧
        keyOf slots₁ (pIdx cap (key % cap) (t₁ + 1 + u)) ≠ 0) ∨
      (keyOf slots₁ (pIdx cap (key % cap) (t₁ + 1 + u)) = key ∧
        valOf slots₁ (pIdx cap (key % cap) (t₁ + 1 + u)) = 0) := by
    intro u hu
    have hu' : t₁ + 1 + u < dv := by omega
    rw [hkeys₁]
    by_cases hk : keyOf slots (pIdx cap (key % cap) (t₁ + 1 + u)) = key
    · refine Or.inr ⟨hk, ?_⟩
      by_cases hieq : pIdx cap (key % cap) (t₁ + 1 + u) = i₁
      · exfalso
        rw [← hpt₁] at hieq
        have := pIdx_inj cap (key % cap) (t₁ + 1 + u) t₁ hh
          (by omega) ht₁ hieq
        omega
      · rw [hslots₁, valOf, entryAt_set_ne (fun hh' => hieq hh'.symm)]
        by_contra hv
        have := hS.uniqLive _ i₁ (pIdx_lt cap (key % cap) _ hpos) hi₁ hv hlive₁
          (by rw [hk, hk₁])
        exact hieq this
    · exact Or.inl ⟨hk, hmin _ hu'⟩
  have hidx₂ : (pIdx cap (key % cap) t₁ % cap + 1) % cap
      = pIdx cap (key % cap) (t₁ + 1) := by
    rw [hmod₁, pIdx_succ]
  have hskip₂ := modifyGo_skip_range cap j key hcap hpos (.insert v) slots₁
    (some w) (key % cap) (dv - (t₁ + 1)) (t₁ + 1)
    (pIdx cap (key % cap) t₁ % cap + 1) (cap + 1 - dv) hidx₂ hbor₂
  rw [show t₁ + 1 + (dv - (t₁ + 1)) = dv by omega] at hskip₂
  rw [show dv - (t₁ + 1) + (cap + 1 - dv) = cap - t₁ by omega] at hskip₂
  -- terminal virgin step on slots₁
  have hmodv : pIdx cap (key % cap) dv % cap = pIdx cap (key % cap) dv :=
    Nat.mod_eq_of_lt (pIdx_lt cap (key % cap) dv hpos)
  have hterm := modifyGo_insert_virgin cap j key v hcap hkey (.insert v)
    (Or.inl rfl) slots₁ (pIdx cap (key % cap) dv) (some w) (cap - dv)
    (by rw [hmodv, hkeys₁]; exact hvirgin)
    (by
      rw [hmodv]
      by_cases hieq : pIdx cap (key % cap) dv = i₁
      · exfalso
        rw [← hpt₁] at hieq
        have := pIdx_inj cap (key % cap) dv t₁ hh hdv ht₁ hieq
        omega
      · rw [hslots₁, valOf, entryAt_set_ne (fun hh' => hieq hh'.symm)]
        exact hS.keyZero _ (pIdx_lt cap (key % cap) dv hpos) hvirgin)
  rw [show cap - dv + 1 = cap + 1 - dv by omega, hmodv] at hterm
  have hne₁ : i₁ ≠ pIdx cap (key % cap) dv := by
    intro hE
    rw [← hpt₁] at hE
    have := pIdx_inj cap (key % cap) t₁ dv hh ht₁ hdv hE
    omega
  refine ⟨i₁, pIdx cap (key % cap) dv, hi₁, pIdx_lt cap (key % cap) dv hpos,
    hne₁, hk₁, hv₁, hvirgin, ?_, ?_⟩
  · intro t ht
    rw [probeDist_pIdx cap (key % cap) dv hh hdv] at ht
    exact hmin t ht
  · rw [hskip₁, hstep, hsetEq, hskip₂, hterm]

/-- `modify_entry` with `Empty` (remove) and a present key: the live slot
is tombstoned, `Replaced` returned. -/
theorem modify_empty_some (cap j key w : Nat) (hcap : cap = 2 ^ j)
    (slots : List (Nat × Nat)) (m : Nat → Option Nat)
    (hS : SlotsInv cap slots m) (hmg : MapGood m)
    (hmk : m key = some w) :
    ∃ i₁, i₁ < cap ∧ keyOf slots i₁ = key ∧ valOf slots i₁ = w ∧
      modifyGo cap key .empty slots key none (cap + 1)
        = ((.replaced w, i₁), slots.set i₁ (key, 0)) := by
  have hpos : 0 < cap := by rw [hcap]; exact Nat.two_pow_pos j
  have hh : key % cap < cap := Nat.mod_lt _ hpos
  obtain ⟨hw2, hwlt⟩ : 2 ≤ w ∧ w < 2 ^ 63 := (hmg key w hmk).2
  obtain ⟨i₁, hi₁, hk₁, hv₁⟩ := hS.complete key w hmk
  have hlive₁ : valOf slots i₁ ≠ 0 := by rw [hv₁]; omega
  have hhome : keyOf slots i₁ % cap = key % cap := by rw [hk₁]
  have ht₁ : probeDist cap (key % cap) i₁ < cap := probeDist_lt cap (key % cap) i₁ hpos
  have hpt₁ : pIdx cap (key % cap) (probeDist cap (key % cap) i₁) = i₁ :=
    pIdx_probeDist cap (key % cap) i₁ hh hi₁
  have hreach₁ : ∀ t, t < probeDist cap (key % cap) i₁ →
      keyOf slots (pIdx cap (key % cap) t) ≠ 0 := by
    intro t ht
    have := hS.reach i₁ hi₁ hlive₁ t (by rw [hhome]; exact ht)
    rw [hhome] at this
    exact this
  have hbor₁ : ∀ u, u < probeDist cap (key % cap) i₁ →
      (keyOf slots (pIdx cap (key % cap) u) ≠ key ∧
        keyOf slots (pIdx cap (key % cap) u) ≠ 0) ∨
      (keyOf slots (pIdx cap (key % cap) u) = key ∧
        valOf slots (pIdx cap (key % cap) u) = 0) := by
    intro u hu
    by_cases hk : keyOf slots (pIdx cap (key % cap) u) = key
    · refine Or.inr ⟨hk, ?_⟩
      by_contra hv
      have := hS.uniqLive _ i₁ (pIdx_lt cap (key % cap) u hpos) hi₁ hv hlive₁
        (by rw [hk, hk₁])
      rw [← hpt₁] at this
      have := pIdx_inj cap (key % cap) u (probeDist cap (key % cap) i₁) hh
        (by omega) ht₁ this
      omega
    · exact Or.inl ⟨hk, hreach₁ u hu⟩
  have hidx0 : key % cap = pIdx cap (key % cap) 0 :=
    (pIdx_zero cap (key % cap) hh).symm
  have hskip := modifyGo_skip_range cap j key hcap hpos .empty slots none
    (key % cap) (probeDist cap (key % cap) i₁) 0 key
    (cap + 1 - probeDist cap (key % cap) i₁) hidx0
    (fun u hu => by rw [Nat.zero_add]; exact hbor₁ u hu)
  rw [Nat.zero_add] at hskip
  rw [show probeDist cap (key % cap) i₁ + (cap + 1 - probeDist cap (key % cap) i₁)
      = cap + 1 by omega] at hskip
  have hmod₁ : pIdx cap (key % cap) (probeDist cap (key % cap) i₁) % cap
      = pIdx cap (key % cap) (probeDist cap (key % cap) i₁) :=
    Nat.mod_eq_of_lt (pIdx_lt cap (key % cap) _ hpos)
  have hterm := modifyGo_live_empty cap j key w hcap slots
    (pIdx cap (key % cap) (probeDist cap (key % cap) i₁)) none
    (cap - probeDist cap (key % cap) i₁)
    (by rw [hmod₁, hpt₁]; exact hk₁) (by rw [hmod₁, hpt₁]; exact hv₁) hw2 hwlt
  rw [show cap - probeDist cap (key % cap) i₁ + 1
      = cap + 1 - probeDist cap (key % cap) i₁ by omega] at hterm
  refine ⟨i₁, hi₁, hk₁, hv₁, ?_⟩
  rw [hskip, hterm, hmod₁, hpt₁]

/-- `modify_entry` with `Empty` (remove) and an absent key: the probe ends
at the first virgin slot with `Fail 0` and the slots untouched. -/
theorem modify_empty_none (cap j key : Nat) (hcap : cap = 2 ^ j)
    (slots : List (Nat × Nat)) (m : Nat → Option Nat)
    (hS : SlotsInv cap slots m) (hkey : key ≠ 0)
    (hole : countKeyed slots < cap) (hmk : m key = none) :
    ∃ i', i' < cap ∧
      modifyGo cap key .empty slots key none (cap + 1) = ((.fail 0, i'), slots) := by
  have hpos : 0 < cap := by rw [hcap]; exact Nat.two_pow_pos j
  have hh : key % cap < cap := Nat.mod_lt _ hpos
  obtain ⟨dv, hdv, hvirgin, hmin⟩ :=
    first_virgin cap hpos slots hS.lenEq hole (key % cap) hh
  have hbor := boring_window cap hpos slots key (key % cap) dv hmin
    (no_live_of_none cap slots m hS key hmk)
  have hidx0 : key % cap = pIdx cap (key % cap) 0 :=
    (pIdx_zero cap (key % cap) hh).symm
  have hskip := modifyGo_skip_range cap j key hcap hpos .empty slots none
    (key % cap) dv 0 key (cap + 1 - dv) hidx0
    (fun u hu => by rw [Nat.zero_add]; exact hbor u hu)
  rw [Nat.zero_add] at hskip
  rw [show dv + (cap + 1 - dv) = cap + 1 by omega] at hskip
  have hmod : pIdx cap (key % cap) dv % cap = pIdx cap (key % cap) dv :=
    Nat.mod_eq_of_lt (pIdx_lt cap (key % cap) dv hpos)
  have hterm := modifyGo_empty_virgin cap j key hcap hkey slots
    (pIdx cap (key % cap) dv) none (cap - dv) (by rw [hmod]; exact hvirgin)
  rw [show cap - dv + 1 = cap + 1 - dv by omega, hmod] at hterm
  exact ⟨pIdx cap (key % cap) dv, pIdx_lt cap (key % cap) dv hpos,
    by rw [hskip, hterm]⟩

/-- `get_from_chunk` on a chunk satisfying the invariant returns the bound
value of a present key... -/
theorem getGo_spec_some (cap j key w : Nat) (hcap : cap = 2 ^ j)
    (slots : List (Nat × Nat)) (m : Nat → Option Nat)
    (hS : SlotsInv cap slots m) (hmg : MapGood m) (hkey : key ≠ 0)
    (hmk : m key = some w) :
    ∃ i₁, i₁ < cap ∧ getGo cap key slots key cap = (.val w, i₁) := by
  have hpos : 0 < cap := by rw [hcap]; exact Nat.two_pow_pos j
  have hh : key % cap < cap := Nat.mod_lt _ hpos
  obtain ⟨hw2, hwlt⟩ : 2 ≤ w ∧ w < 2 ^ 63 := (hmg key w hmk).2
  obtain ⟨i₁, hi₁, hk₁, hv₁⟩ := hS.complete key w hmk
  have hlive₁ : valOf slots i₁ ≠ 0 := by rw [hv₁]; omega
  have hhome : keyOf slots i₁ % cap = key % cap := by rw [hk₁]
  have ht₁ : probeDist cap (key % cap) i₁ < cap := probeDist_lt cap (key % cap) i₁ hpos
  have hpt₁ : pIdx cap (key % cap) (probeDist cap (key % cap) i₁) = i₁ :=
    pIdx_probeDist cap (key % cap) i₁ hh hi₁
  have hreach₁ : ∀ t, t < probeDist cap (key % cap) i₁ →
      keyOf slots (pIdx cap (key % cap) t) ≠ 0 := by
    intro t ht
    have := hS.reach i₁ hi₁ hlive₁ t (by rw [hhome]; exact ht)
    rw [hhome] at this
    exact this
  have hbor₁ : ∀ u, u < probeDist cap (key % cap) i₁ →
      (keyOf slots (pIdx cap (key % cap) u) ≠ key ∧
        keyOf slots (pIdx cap (key % cap) u) ≠ 0) ∨
      (keyOf slots (pIdx cap (key % cap) u) = key ∧
        valOf slots (pIdx cap (key % cap) u) = 0) := by
    intro u hu
    by_cases hk : keyOf slots (pIdx cap (key % cap) u) = key
    · refine Or.inr ⟨hk, ?_⟩
      by_contra hv
      have := hS.uniqLive _ i₁ (pIdx_lt cap (key % cap) u hpos) hi₁ hv hlive₁
        (by rw [hk, hk₁])
      rw [← hpt₁] at this
      have := pIdx_inj cap (key % cap) u (probeDist cap (key % cap) i₁) hh
        (by omega) ht₁ this
      omega
    · exact Or.inl ⟨hk, hreach₁ u hu⟩
  have hidx0 : key % cap = pIdx cap (key % cap) 0 :=
    (pIdx_zero cap (key % cap) hh).symm
  have hskip := getGo_skip_range cap j key hcap hpos hkey slots (key % cap)
    (probeDist cap (key % cap) i₁) 0 key (cap - probeDist cap (key % cap) i₁) hidx0
    (fun u hu => by rw [Nat.zero_add]; exact hbor₁ u hu)
  rw [Nat.zero_add] at hskip
  rw [show probeDist cap (key % cap) i₁ + (cap - probeDist cap (key % cap) i₁)
      = cap by omega] at hskip
  have hmod₁ : pIdx cap (key % cap) (probeDist cap (key % cap) i₁) % cap
      = pIdx cap (key % cap) (probeDist cap (key % cap) i₁) :=
    Nat.mod_eq_of_lt (pIdx_lt cap (key % cap) _ hpos)
  have hterm := getGo_live cap j key w hcap slots
    (pIdx cap (key % cap) (probeDist cap (key % cap) i₁))
    (cap - probeDist cap (key % cap) i₁ - 1)
    (by rw [hmod₁, hpt₁]; exact hk₁) (by rw [hmod₁, hpt₁]; exact hv₁) hw2 hwlt
  rw [show cap - probeDist cap (key % cap) i₁ - 1 + 1
      = cap - probeDist cap (key % cap) i₁ by omega] at hterm
  refine ⟨i₁, hi₁, ?_⟩
  rw [hskip, hterm, hmod₁, hpt₁]

/-- `get_from_chunk` on a chunk satisfying the invariant reports empty for
an absent key. -/
theorem getGo_spec_none (cap j key : Nat) (hcap : cap = 2 ^ j)
    (slots : List (Nat × Nat)) (m : Nat → Option Nat)
    (hS : SlotsInv cap slots m) (hkey : key ≠ 0)
    (hole : countKeyed slots < cap) (hmk : m key = none) :
    getGo cap key slots key cap = (.empty, 0) := by
  have hpos : 0 < cap := by rw [hcap]; exact Nat.two_pow_pos j
  have hh : key % cap < cap := Nat.mod_lt _ hpos
  obtain ⟨dv, hdv, hvirgin, hmin⟩ :=
    first_virgin cap hpos slots hS.lenEq hole (key % cap) hh
  have hbor := boring_window cap hpos slots key (key % cap) dv hmin
    (no_live_of_none cap slots m hS key hmk)
  have hidx0 : key % cap = pIdx cap (key % cap) 0 :=
    (pIdx_zero cap (key % cap) hh).symm
  have hskip := getGo_skip_range cap j key hcap hpos hkey slots (key % cap)
    dv 0 key (cap - dv) hidx0
    (fun u hu => by rw [Nat.zero_add]; exact hbor u hu)
  rw [Nat.zero_add] at hskip
  rw [show dv + (cap - dv) = cap by omega] at hskip
  have hmod : pIdx cap (key % cap) dv % cap = pIdx cap (key % cap) dv :=
    Nat.mod_eq_of_lt (pIdx_lt cap (key % cap) dv hpos)
  have hterm := getGo_virgin cap j key hcap hkey slots
    (pIdx cap (key % cap) dv) (cap - dv - 1) (by rw [hmod]; exact hvirgin)
  rw [show cap - dv - 1 + 1 = cap - dv by omega] at hterm
  rw [hskip, hterm]

/-! ## Theorems: invariant preservation for the table operations -/

theorem keyOf_set_self {slots : List (Nat × Nat)} {i : Nat} (h : i < slots.length)
    (x : Nat × Nat) : keyOf (slots.set i x) i = x.1 := by
  rw [keyOf, entryAt_set_self h]

theorem keyOf_set_ne {slots : List (Nat × Nat)} {i q : Nat} (h : i ≠ q)
    (x : Nat × Nat) : keyOf (slots.set i x) q = keyOf slots q := by
  rw [keyOf, keyOf, entryAt_set_ne h]

theorem valOf_set_self {slots : List (Nat × Nat)} {i : Nat} (h : i < slots.length)
    (x : Nat × Nat) : valOf (slots.set i x) i = x.2 := by
  rw [valOf, entryAt_set_self h]

theorem valOf_set_ne {slots : List (Nat × Nat)} {i q : Nat} (h : i ≠ q)
    (x : Nat × Nat) : valOf (slots.set i x) q = valOf slots q := by
  rw [valOf, valOf, entryAt_set_ne h]

theorem slotsInv_congr (cap : Nat) (slots : List (Nat × Nat))
    (m m' : Nat → Option Nat) (hS : SlotsInv cap slots m)
    (h : ∀ q, m' q = m q) : SlotsInv cap slots m' := by
  refine ⟨hS.lenEq, hS.keyZero, ?_, ?_, hS.uniqLive, hS.reach⟩
  · intro i hi hv
    obtain ⟨h1, h2⟩ := hS.liveOk i hi hv
    exact ⟨h1, by rw [h]; exact h2⟩
  · intro k v hk
    rw [h] at hk
    exact hS.complete k v hk

theorem slotsInv_tombstone (cap : Nat) (slots : List (Nat × Nat))
    (m : Nat → Option Nat) (hS : SlotsInv cap slots m) (k : Nat) (i₁ : Nat)
    (hi₁ : i₁ < cap) (hk₁ : keyOf slots i₁ = k) (hlive : valOf slots i₁ ≠ 0) :
    SlotsInv cap (slots.set i₁ (k, 0)) (mapDel m k) := by
  have hlen : i₁ < slots.length := by rw [hS.lenEq]; exact hi₁
  have hkne : k ≠ 0 := by
    intro h0
    exact hlive (hS.keyZero i₁ hi₁ (h0 ▸ hk₁))
  have hkeys : ∀ q, keyOf (slots.set i₁ (k, 0)) q = keyOf slots q := by
    intro q
    by_cases hq : i₁ = q
    · subst hq; rw [keyOf_set_self hlen, hk₁]
    · rw [keyOf_set_ne hq]
  refine ⟨by simpa using hS.lenEq, ?_, ?_, ?_, ?_, ?_⟩
  · intro q hq hk0
    rw [hkeys] at hk0
    by_cases hq1 : i₁ = q
    · subst hq1; rw [valOf_set_self hlen]
    · rw [valOf_set_ne hq1]; exact hS.keyZero q hq hk0
  · intro q hq hv
    by_cases hq1 : i₁ = q
    · subst hq1; rw [valOf_set_self hlen] at hv; exact absurd rfl hv
    · rw [valOf_set_ne hq1] at hv
      obtain ⟨h1, h2⟩ := hS.liveOk q hq hv
      rw [hkeys]
      refine ⟨h1, ?_⟩
      have hne : keyOf slots q ≠ k := by
        intro hkk
        exact hq1 (hS.uniqLive q i₁ hq hi₁ hv hlive (by rw [hkk, hk₁])).symm
      rw [mapDel, if_neg hne, valOf_set_ne hq1]
      exact h2
  · intro q v hq
    rw [mapDel] at hq
    by_cases hqk : q = k
    · rw [if_pos hqk] at hq; cases hq
    · rw [if_neg hqk] at hq
      obtain ⟨i, hi, hik, hiv⟩ := hS.complete q v hq
      refine ⟨i, hi, ?_, ?_⟩
      · rw [hkeys]; exact hik
      · have hne : i₁ ≠ i := by
          intro h; subst h; rw [hk₁] at hik; exact hqk hik.symm
        rw [valOf_set_ne hne]; exact hiv
  · intro i q hi hq hvi hvq hk
    have hne_i : i₁ ≠ i := by
      intro h; subst h; rw [valOf_set_self hlen] at hvi; exact hvi rfl
    have hne_q : i₁ ≠ q := by
      intro h; subst h; rw [valOf_set_self hlen] at hvq; exact hvq rfl
    rw [valOf_set_ne hne_i] at hvi
    rw [valOf_set_ne hne_q] at hvq
    rw [hkeys, hkeys] at hk
    exact hS.uniqLive i q hi hq hvi hvq hk
  · intro i hi hvi t ht
    have hne_i : i₁ ≠ i := by
      intro h; subst h; rw [valOf_set_self hlen] at hvi; exact hvi rfl
    rw [valOf_set_ne hne_i] at hvi
    rw [hkeys] at ht ⊢
    rw [hkeys]
    exact hS.reach i hi hvi t ht

theorem slotsInv_insert_fresh (cap : Nat) (slots : List (Nat × Nat))
    (m : Nat → Option Nat) (hS : SlotsInv cap slots m) (hm0 : m 0 = none)
    (k v : Nat) (hk : k ≠ 0) (i' : Nat) (hi' : i' < cap)
    (hkey0 : keyOf slots i' = 0)
    (hreach : ∀ t, t < probeDist cap (k % cap) i' →
      keyOf slots (pIdx cap (k % cap) t) ≠ 0)
    (hnolive : ∀ i, i < cap → keyOf slots i = k → valOf slots i = 0) :
    SlotsInv cap (slots.set i' (k, v)) (mapUpd m k v) := by
  have hpos : 0 < cap := by omega
  have hh : k % cap < cap := Nat.mod_lt _ hpos
  have hlen : i' < slots.length := by rw [hS.lenEq]; exact hi'
  refine ⟨by simpa using hS.lenEq, ?_, ?_, ?_, ?_, ?_⟩
  · intro q hq hk0
    by_cases hq1 : i' = q
    · subst hq1; rw [keyOf_set_self hlen] at hk0; exact absurd hk0 hk
    · rw [keyOf_set_ne hq1] at hk0
      rw [valOf_set_ne hq1]
      exact hS.keyZero q hq hk0
  · intro q hq hvq
    by_cases hq1 : i' = q
    · subst hq1
      rw [keyOf_set_self hlen, valOf_set_self hlen]
      exact ⟨hk, by rw [mapUpd, if_pos rfl]⟩
    · rw [valOf_set_ne hq1] at hvq
      rw [keyOf_set_ne hq1]
      obtain ⟨h1, h2⟩ := hS.liveOk q hq hvq
      refine ⟨h1, ?_⟩
      have hne : keyOf slots q ≠ k := by
        intro hkk
        have := hnolive q hq hkk
        exact hvq this
      rw [mapUpd, if_neg hne, valOf_set_ne hq1]
      exact h2
  · intro q w hq
    rw [mapUpd] at hq
    by_cases hqk : q = k
    · subst hqk
      rw [if_pos rfl] at hq
      refine ⟨i', hi', ?_, ?_⟩
      · rw [keyOf_set_self hlen]
      · rw [valOf_set_self hlen]; cases hq; rfl
    · rw [if_neg hqk] at hq
      have hq0 : q ≠ 0 := by
        intro h0; subst h0; rw [hm0] at hq; cases hq
      obtain ⟨i, hi, hik, hiv⟩ := hS.complete q w hq
      have hne : i' ≠ i := by
        intro h; subst h; rw [hkey0] at hik
        exact hq0 hik.symm
      refine ⟨i, hi, by rw [keyOf_set_ne hne]; exact hik,
        by rw [valOf_set_ne hne]; exact hiv⟩
  · intro i q hi hq hvi hvq hkk
    by_cases h1 : i' = i <;> by_cases h2 : i' = q
    · rw [← h1, ← h2]
    · exfalso
      rw [← h1, keyOf_set_self hlen, keyOf_set_ne h2] at hkk
      rw [valOf_set_ne h2] at hvq
      exact hvq (hnolive q hq hkk.symm)
    · exfalso
      rw [← h2, keyOf_set_self hlen, keyOf_set_ne h1] at hkk
      rw [valOf_set_ne h1] at hvi
      exact hvi (hnolive i hi hkk)
    · rw [keyOf_set_ne h1, keyOf_set_ne h2] at hkk
      rw [valOf_set_ne h1] at hvi
      rw [valOf_set_ne h2] at hvq
      exact hS.uniqLive i q hi hq hvi hvq hkk
  · intro i hi hvi t ht
    by_cases h1 : i' = i
    · subst h1
      rw [keyOf_set_self hlen] at ht ⊢
      by_cases hE : pIdx cap (k % cap) t = i'
      · rw [hE, keyOf_set_self hlen]; exact hk
      · rw [keyOf_set_ne (fun hh' => hE hh'.symm)]
        exact hreach t ht
    · have hvi' : valOf slots i ≠ 0 := by rwa [valOf_set_ne h1] at hvi
      rw [keyOf_set_ne h1] at ht ⊢
      by_cases hE : pIdx cap (keyOf slots i % cap) t = i'
      · rw [hE, keyOf_set_self hlen]; exact hk
      · rw [keyOf_set_ne (fun hh' => hE hh'.symm)]
        exact hS.reach i hi hvi' t ht

theorem mapGood_zero (m : Nat → Option Nat) (hmg : MapGood m) : m 0 = none := by
  cases h : m 0 with
  | none => rfl
  | some w => exact absurd rfl (hmg 0 w h).1

theorem mapGood_upd (m : Nat → Option Nat) (k v : Nat) (hmg : MapGood m)
    (hk : GoodKey k) (hv : GoodVal v) : MapGood (mapUpd m k v) := by
  intro q w hq
  rw [mapUpd] at hq
  by_cases hqk : q = k
  · rw [if_pos hqk] at hq
    cases hq
    exact ⟨hqk ▸ hk, hv⟩
  · rw [if_neg hqk] at hq
    exact hmg q w hq

theorem mapGood_del (m : Nat → Option Nat) (k : Nat) (hmg : MapGood m) :
    MapGood (mapDel m k) := by
  intro q w hq
  rw [mapDel] at hq
  by_cases hqk : q = k
  · rw [if_pos hqk] at hq; cases hq
  · rw [if_neg hqk] at hq
    exact hmg q w hq

theorem occLimit_lt (cap : Nat) (h4 : 4 ≤ cap) : occupation_limit cap + 1 < cap := by
  rw [occupation_limit]
  have h2 : 7 * cap / 10 < cap - 1 := by
    rw [Nat.div_lt_iff_lt_mul (by norm_num)]
    omega
  omega

theorem cap_ge_four (c : Chunk) (m : Nat → Option Nat) (hI : ChunkInv c m) :
    4 ≤ c.cap := by
  obtain ⟨j, hj, hcap⟩ := hI.capPow
  rw [hcap]
  calc (4 : Nat) = 2 ^ 2 := by norm_num
  _ ≤ 2 ^ j := Nat.pow_le_pow_right (by norm_num) hj

theorem chunkInv_hole (c : Chunk) (m : Nat → Option Nat) (hI : ChunkInv c m) :
    countKeyed c.slots < c.cap := by
  have h4 := cap_ge_four c m hI
  have h1 := occLimit_lt c.cap h4
  have h2 := hI.occLe
  have h3 := hI.occEq
  have h5 := hI.limitEq
  omega

/-- `Table::insert` without an occupancy-triggered resize: success, and the
invariant advances to the updated model. -/
theorem table_insert_noresize (c : Chunk) (m : Nat → Option Nat) (k v : Nat)
    (fuel : Nat) (hI : ChunkInv c m) (hk : GoodKey k) (hv : GoodVal v)
    (hocc : ¬ c.occupation > c.occuLimit) :
    ∃ c' r, table_insert c k v (fuel + 1) = .ok (c', r) ∧
      ChunkInv c' (mapUpd m k v) ∧ c'.cap = c.cap := by
  obtain ⟨j, hj, hcap⟩ := hI.capPow
  have hS := hI.slotsInv
  have hmg := hI.mGood
  have hole := chunkInv_hole c m hI
  have hk' : k ≠ 0 := hk
  have hv0 : v ≠ 0 := by have := hv.1; omega
  cases hm : m k with
  | none =>
      obtain ⟨i', hi', hkey0, hreach, heq⟩ := modify_insert_none c.cap j k v hcap
        c.slots m hS hk' hole hm (.insert v) (Or.inl rfl)
      have hmod : modify_entry c k (.insert v)
          = ((.done i', i'), { c with slots := c.slots.set i' (k, v) }) := by
        simp [modify_entry, heq]
      refine ⟨{ c with slots := c.slots.set i' (k, v), occupation := c.occupation + 1 }, none, ?_, ?_, rfl⟩
      · simp only [table_insert, hmod]
        rw [if_neg hocc]
      · have hcs := countKeyed_set c.slots i' (k, v) (by rw [hS.lenEq]; exact hi')
        rw [hkey0] at hcs
        simp only [ne_eq, not_true_eq_false, if_false, hk', not_false_eq_true, if_true] at hcs
        refine ⟨⟨j, hj, hcap⟩, hI.limitEq, ?_, ?_, mapGood_upd m k v hmg hk hv, ?_⟩
        · show c.occupation + 1 = countKeyed (c.slots.set i' (k, v))
          have := hI.occEq
          omega
        · show c.occupation + 1 ≤ c.occuLimit + 1
          omega
        · exact slotsInv_insert_fresh c.cap c.slots m hS (mapGood_zero m hmg)
            k v hk' i' hi' hkey0 hreach (no_live_of_none c.cap c.slots m hS k hm)
  | some w =>
      obtain ⟨i₁, i', hi₁, hi', hne, hk₁, hv₁, hkey0, hreach, heq⟩ :=
        modify_insert_some c.cap j k v w hcap c.slots m hS hmg hk' hole hm
      have hmod : modify_entry c k (.insert v)
          = ((.replaced w, i'),
             { c with slots := (c.slots.set i₁ (k, 0)).set i' (k, v) }) := by
        simp [modify_entry, heq]
      refine ⟨{ c with slots := (c.slots.set i₁ (k, 0)).set i' (k, v), occupation := c.occupation + 1 }, some w, ?_, ?_, rfl⟩
      · simp only [table_insert, hmod]
        rw [if_neg hocc]
      · have hlen₁ : i₁ < c.slots.length := by rw [hS.lenEq]; exact hi₁
        have hcs₁ := countKeyed_set c.slots i₁ (k, 0) hlen₁
        rw [hk₁] at hcs₁
        have hlen' : i' < (c.slots.set i₁ (k, 0)).length := by
          simpa using (by rw [hS.lenEq]; exact hi' : i' < c.slots.length)
        have hcs₂ := countKeyed_set (c.slots.set i₁ (k, 0)) i' (k, v) hlen'
        rw [keyOf_set_ne hne, hkey0] at hcs₂
        have hlive₁ : valOf c.slots i₁ ≠ 0 := by
          rw [hv₁]
          have := (hmg k w hm).2.1
          omega
        have hS₁ := slotsInv_tombstone c.cap c.slots m hS k i₁ hi₁ hk₁ hlive₁
        have hkeys₁ : ∀ q, keyOf (c.slots.set i₁ (k, 0)) q = keyOf c.slots q := by
          intro q
          by_cases hq : i₁ = q
          · subst hq; rw [keyOf_set_self hlen₁, hk₁]
          · rw [keyOf_set_ne hq]
        refine ⟨⟨j, hj, hcap⟩, hI.limitEq, ?_, ?_, mapGood_upd m k v hmg hk hv, ?_⟩
        · show c.occupation + 1 = countKeyed ((c.slots.set i₁ (k, 0)).set i' (k, v))
          have := hI.occEq
          simp only [if_pos hk', ne_eq, not_true_eq_false, if_false] at hcs₁ hcs₂
          omega
        · show c.occupation + 1 ≤ c.occuLimit + 1
          omega
        · have hfresh := slotsInv_insert_fresh c.cap (c.slots.set i₁ (k, 0))
            (mapDel m k) hS₁
            (by simp [mapDel, mapGood_zero m hmg])
            k v hk' i' hi'
            (by rw [hkeys₁]; exact hkey0)
            (fun t ht => by rw [hkeys₁]; exact hreach t ht)
            (by
              intro i hi hki
              rw [hkeys₁] at hki
              by_cases hq : i₁ = i
              · subst hq; rw [valOf_set_self hlen₁]
              · rw [valOf_set_ne hq]
                by_contra hvv
                exact hq (hS.uniqLive i₁ i hi₁ hi hlive₁ hvv (by rw [hk₁, hki])))
          refine slotsInv_congr _ _ _ _ hfresh ?_
          intro q
          by_cases hq : q = k <;> simp [mapUpd, mapDel, hq]

/-- `Table::remove`: success, and the invariant advances to the model with
the key erased. -/
theorem table_remove_spec (c : Chunk) (m : Nat → Option Nat) (k : Nat)
    (hI : ChunkInv c m) (hk : GoodKey k) :
    ∃ c' r, table_remove c k = .ok (c', r) ∧ ChunkInv c' (mapDel m k) ∧
      c'.cap = c.cap ∧ c'.occupation = c.occupation ∧ c'.occuLimit = c.occuLimit := by
  obtain ⟨j, hj, hcap⟩ := hI.capPow
  have hS := hI.slotsInv
  have hmg := hI.mGood
  have hole := chunkInv_hole c m hI
  have hk' : k ≠ 0 := hk
  cases hm : m k with
  | some w =>
      obtain ⟨i₁, hi₁, hk₁, hv₁, heq⟩ :=
        modify_empty_some c.cap j k w hcap c.slots m hS hmg hm
      have hmod : modify_entry c k .empty
          = ((.replaced w, i₁), { c with slots := c.slots.set i₁ (k, 0) }) := by
        simp [modify_entry, heq]
      have hlen₁ : i₁ < c.slots.length := by rw [hS.lenEq]; exact hi₁
      have hcs₁ := countKeyed_set c.slots i₁ (k, 0) hlen₁
      rw [hk₁] at hcs₁
      have hlive₁ : valOf c.slots i₁ ≠ 0 := by
        rw [hv₁]
        have := (hmg k w hm).2.1
        omega
      refine ⟨{ c with slots := c.slots.set i₁ (k, 0) }, none, ?_, ?_, rfl, rfl, rfl⟩
      · simp only [table_remove, hmod]
      · refine ⟨⟨j, hj, hcap⟩, hI.limitEq, ?_, hI.occLe,
          mapGood_del m k hmg, ?_⟩
        · show c.occupation = countKeyed (c.slots.set i₁ (k, 0))
          have := hI.occEq
          simp only [if_pos hk', ne_eq, not_true_eq_false, if_false] at hcs₁
          omega
        · exact slotsInv_tombstone c.cap c.slots m hS k i₁ hi₁ hk₁ hlive₁
  | none =>
      obtain ⟨i', hi', heq⟩ :=
        modify_empty_none c.cap j k hcap c.slots m hS hk' hole hm
      have hmod : modify_entry c k .empty
          = ((.fail 0, i'), { c with slots := c.slots }) := by
        simp [modify_entry, heq]
      refine ⟨{ c with slots := c.slots }, none, ?_, ?_, rfl, rfl, rfl⟩
      · simp only [table_remove, hmod]
      · refine ⟨⟨j, hj, hcap⟩, hI.limitEq, hI.occEq, hI.occLe,
          mapGood_del m k hmg, ?_⟩
        refine slotsInv_congr _ _ _ _ hS ?_
        intro q
        by_cases hq : q = k <;> simp [mapDel, hq, hm]

/-- `Table::get` on a chunk satisfying the invariant agrees with the model. -/
theorem chunkGet_spec (c : Chunk) (m : Nat → Option Nat) (k : Nat)
    (hI : ChunkInv c m) (hk : GoodKey k) : chunkGet c k = m k := by
  obtain ⟨j, hj, hcap⟩ := hI.capPow
  have hS := hI.slotsInv
  have hmg := hI.mGood
  have hole := chunkInv_hole c m hI
  have hk' : k ≠ 0 := hk
  cases hm : m k with
  | some w =>
      obtain ⟨i₁, _, heq⟩ := getGo_spec_some c.cap j k w hcap c.slots m hS hmg hk' hm
      simp [chunkGet, table_get, getLoop, get_from_chunk, heq]
  | none =>
      have heq := getGo_spec_none c.cap j k hcap c.slots m hS hk' hole hm
      simp [chunkGet, table_get, getLoop, get_from_chunk, heq]

/-! ## Theorems: resize capacity (C5) and table-full handling (C9) -/

theorem resizeSlot_caps (o n : Chunk) (e i : Nat) (o' n' : Chunk) (e' : Nat)
    (h : resizeSlot o n e i = .ok (o', n', e')) :
    o'.cap = o.cap ∧ n'.cap = n.cap := by
  simp only [resizeSlot] at h
  split at h
  · cases h; exact ⟨rfl, rfl⟩
  · split at h
    · split at h
      · split at h
        · cases h; exact ⟨rfl, rfl⟩
        · cases h; exact ⟨rfl, rfl⟩
      · cases h; exact ⟨rfl, rfl⟩
      · exact Except.noConfusion h
      · exact Except.noConfusion h
      · exact Except.noConfusion h
      · exact Except.noConfusion h
    · exact Except.noConfusion h
    · cases h; exact ⟨rfl, rfl⟩
    · cases h; exact ⟨rfl, rfl⟩

theorem resizePartial_caps (c n0 : Chunk) :
    ∀ (i : Nat) (o' n' : Chunk) (e' : Nat),
    resizePartial c n0 i = .ok (o', n', e') → o'.cap = c.cap ∧ n'.cap = n0.cap := by
  intro i
  induction i with
  | zero =>
      intro o' n' e' h
      simp only [resizePartial] at h
      cases h
      exact ⟨rfl, rfl⟩
  | succ i ih =>
      intro o' n' e' h
      rw [resizePartial] at h
      cases hr : resizePartial c n0 i with
      | error s =>
          rw [hr] at h
          exact Except.noConfusion h
      | ok t =>
          obtain ⟨o, n, e⟩ := t
          rw [hr] at h
          have hslot : resizeSlot o n e i = .ok (o', n', e') := h
          obtain ⟨h1, h2⟩ := resizeSlot_caps o n e i o' n' e' hslot
          obtain ⟨h3, h4⟩ := ih o n e hr
          exact ⟨h1.trans h3, h2.trans h4⟩

/-- **C5** (amended).  The resize of `Table::check_resize` allocates the new
chunk with capacity `old << 4 = old × 16` when the old capacity is below
2048 entries, and `old << 1 = old × 2` otherwise — not `× 4` / `× 2` as
claimed (lfmap.rs:361-363 uses the multiplier as a shift amount). -/
theorem c5_resize_capacity (c c' : Chunk) (h : do_resize c = .ok c') :
    c'.cap = (if c.cap < 2048 then 16 else 2) * c.cap := by
  simp only [do_resize] at h
  cases hr : resizePartial c
      (alloc_chunk (c.cap <<< if c.cap < 2048 then 4 else 1)) c.cap with
  | error s =>
      rw [hr] at h
      exact Except.noConfusion h
  | ok t =>
      obtain ⟨o, n, e⟩ := t
      rw [hr] at h
      have h' : Except.ok (ε := String) { n with occupation := n.occupation + e }
          = .ok c' := h
      cases h'
      have hcap := (resizePartial_caps c _ c.cap o n e hr).2
      show n.cap = _
      rw [hcap]
      show c.cap <<< (if c.cap < 2048 then 4 else 1) = _
      rw [Nat.shiftLeft_eq]
      by_cases hlt : c.cap < 2048
      · rw [if_pos hlt, if_pos hlt]
        norm_num [Nat.mul_comm]
      · rw [if_neg hlt, if_neg hlt]
        norm_num [Nat.mul_comm]

theorem c5_resize_capacity_witness :
    (alloc_chunk 256).cap
      = (if (alloc_chunk 16).cap < 2048 then 16 else 2) * (alloc_chunk 16).cap :=
  c5_resize_capacity (alloc_chunk 16) (alloc_chunk 256) (by rfl)

/-- **C5** counterexample to the claimed factor: resizing a 16-slot chunk
yields capacity 256, not `16 × 4 = 64`. -/
theorem c5_counterexample :
    Except.map Chunk.cap (do_resize (alloc_chunk 16)) = .ok 256 ∧ (256 : Nat) ≠ 16 * 4 :=
  ⟨rfl, by decide⟩

/-- **C9** (amended).  When the probe of `Table::modify_entry` traverses the
whole chunk without a decision, `Table::insert` does not resize and retry:
it panics with "Insertion is too fast" (lfmap.rs:137).  The resize-and-retry
happens only on the occupancy check at the top of `insert`, before the
probe. -/
theorem c9_table_full_panics (c : Chunk) (k v fuel : Nat)
    (hocc : ¬ c.occupation > c.occuLimit)
    (hfull : (modify_entry c k (.insert v)).1.1 = .tableFull) :
    table_insert c k v (fuel + 1) = .error "Insertion is too fast" := by
  simp only [table_insert]
  rw [if_neg hocc, hfull]

theorem c9_table_full_panics_witness :
    ¬ (⟨4, [(1, 2), (2, 2), (3, 2), (5, 2)], 2, 2⟩ : Chunk).occupation
        > (⟨4, [(1, 2), (2, 2), (3, 2), (5, 2)], 2, 2⟩ : Chunk).occuLimit ∧
    (modify_entry ⟨4, [(1, 2), (2, 2), (3, 2), (5, 2)], 2, 2⟩ 9 (.insert 6)).1.1
        = .tableFull ∧
    table_insert ⟨4, [(1, 2), (2, 2), (3, 2), (5, 2)], 2, 2⟩ 9 6 1
        = .error "Insertion is too fast" :=
  ⟨by decide, by decide,
    c9_table_full_panics ⟨4, [(1, 2), (2, 2), (3, 2), (5, 2)], 2, 2⟩ 9 6 0
      (by decide) (by decide)⟩

/-- **C9** counterexample to the claimed retry: on a chunk whose every slot
is occupied by another key (a state concurrent inserts can reach, since
`occupation` is only bumped after the probe), `insert` with full fuel
returns the panic, not a resized table. -/
theorem c9_counterexample :
    table_insert ⟨4, [(1, 2), (2, 2), (3, 2), (5, 2)], 2, 2⟩ 9 6 2
      = .error "Insertion is too fast" := rfl

/-! ## Theorems: the resize copy loop preserves the table contents -/

theorem countKeyed_replicate (nn : Nat) :
    countKeyed (List.replicate nn ((0 : Nat), (0 : Nat))) = 0 := by
  induction nn with
  | zero => rfl
  | succ nn ih =>
      rw [List.replicate_succ, countKeyed, List.countP_cons]
      rw [countKeyed] at ih
      simp [ih]

theorem slotsInv_replicate (cap : Nat) :
    SlotsInv cap (List.replicate cap ((0 : Nat), (0 : Nat))) (fun _ => none) := by
  refine ⟨by simp, ?_, ?_, ?_, ?_, ?_⟩
  · intro i _ _
    rw [valOf, entryAt_replicate]
  · intro i _ hv
    exact absurd (by rw [valOf, entryAt_replicate]) hv
  · intro k v h
    cases h
  · intro i j _ _ hv _ _
    exact absurd (by rw [valOf, entryAt_replicate]) hv
  · intro i _ hv
    exact absurd (by rw [valOf, entryAt_replicate]) hv

theorem chunkInv_alloc (j : Nat) (hj : 2 ≤ j) :
    ChunkInv (alloc_chunk (2 ^ j)) (fun _ => none) := by
  refine ⟨⟨j, hj, rfl⟩, rfl, (countKeyed_replicate _).symm, Nat.zero_le _,
    ?_, slotsInv_replicate _⟩
  intro k v h
  cases h

theorem getGo_sentinel (cap j key : Nat) (hcap : cap = 2 ^ j)
    (slots : List (Nat × Nat)) (idx fuel : Nat)
    (hk : keyOf slots (idx % cap) = key) (hw : valOf slots (idx % cap) = 1) :
    getGo cap key slots idx (fuel + 1) = (.sentinel, idx % cap) := by
  simp only [getGo]
  rw [land_cap j cap hcap idx, hk, hw, if_pos rfl, parse_one]

/-- A value bound by `copiedMap` comes from a live slot below the cursor. -/
theorem copiedMap_sound (c : Chunk) :
    ∀ (i q w : Nat), copiedMap c i q = some w →
      ∃ l, l < i ∧ keyOf c.slots l = q ∧ valOf c.slots l = w ∧ w ≠ 0 := by
  intro i
  induction i with
  | zero => intro q w h; cases h
  | succ i ih =>
      intro q w h
      simp only [copiedMap] at h
      split at h
      · rename_i hc
        cases h
        exact ⟨i, Nat.lt_succ_self i, hc.1, rfl, hc.2⟩
      · obtain ⟨l, hl, h1, h2, h3⟩ := ih q w h
        exact ⟨l, Nat.lt_succ_of_lt hl, h1, h2, h3⟩

/-- A live slot below the cursor is bound by `copiedMap` (uniqueness of the
live slot keeps later iterations from overwriting it). -/
theorem copiedMap_live (c : Chunk) (m : Nat → Option Nat)
    (hS : SlotsInv c.cap c.slots m) :
    ∀ (i : Nat), i ≤ c.cap → ∀ l, l < i → valOf c.slots l ≠ 0 →
      copiedMap c i (keyOf c.slots l) = some (valOf c.slots l) := by
  intro i
  induction i with
  | zero => intro _ l hl; omega
  | succ i ih =>
      intro hi l hl hlive
      simp only [copiedMap]
      rcases Nat.lt_or_ge l i with hli | hge
      · split
        · rename_i hc
          have hieq := hS.uniqLive i l (by omega) (by omega) hc.2 hlive hc.1
          omega
        · exact ih (by omega) l hli hlive
      · have hleq : l = i := by omega
        subst hleq
        rw [if_pos ⟨rfl, hlive⟩]

/-- After the whole array has been processed, `copiedMap` equals the model. -/
theorem copiedMap_full (c : Chunk) (m : Nat → Option Nat) (hI : ChunkInv c m) :
    ∀ q, copiedMap c c.cap q = m q := by
  intro q
  have hS := hI.slotsInv
  cases hm : m q with
  | some w =>
      obtain ⟨l, hl, hk, hv⟩ := hS.complete q w hm
      have hw0 : w ≠ 0 := by
        have := (hI.mGood q w hm).2.1
        omega
      have := copiedMap_live c m hS c.cap (le_refl _) l hl (by rw [hv]; exact hw0)
      rw [hk, hv] at this
      exact this
  | none =>
      cases hcm : copiedMap c c.cap q with
      | none => rfl
      | some w =>
          obtain ⟨l, hl, hk, hv, hw0⟩ := copiedMap_sound c c.cap q w hcm
          have := (hS.liveOk l hl (by rw [hv]; exact hw0)).2
          rw [hk, hv, hm] at this
          cases this

/-- `copiedMap` never binds the empty key. -/
theorem copiedMap_zero (c : Chunk) (m : Nat → Option Nat)
    (hS : SlotsInv c.cap c.slots m) :
    ∀ i, i ≤ c.cap → copiedMap c i 0 = none := by
  intro i
  induction i with
  | zero => intro _; rfl
  | succ i ih =>
      intro hi
      simp only [copiedMap]
      split
      · rename_i hc
        exact absurd (hS.keyZero i (by omega) hc.1) hc.2
      · exact ih (by omega)

/-- `copiedMap` values inherit the goodness of the model's. -/
theorem copiedMap_good (c : Chunk) (m : Nat → Option Nat) (hI : ChunkInv c m) :
    ∀ i, i ≤ c.cap → MapGood (copiedMap c i) := by
  intro i hi q w h
  obtain ⟨l, hl, hk, hv, hw0⟩ := copiedMap_sound c i q w h
  have hlive : valOf c.slots l ≠ 0 := by rw [hv]; exact hw0
  have := hI.slotsInv.liveOk l (by omega) hlive
  rw [hk, hv] at this
  exact hI.mGood q w this.2

/-- The live slot for a key has not been copied before its own iteration. -/
theorem copiedMap_not_yet (c : Chunk) (m : Nat → Option Nat)
    (hS : SlotsInv c.cap c.slots m) (i : Nat) (hi : i < c.cap)
    (hlive : valOf c.slots i ≠ 0) :
    ∀ l, l ≤ i → copiedMap c l (keyOf c.slots i) = none := by
  intro l
  induction l with
  | zero => intro _; rfl
  | succ l ih =>
      intro hl
      simp only [copiedMap]
      split
      · rename_i hc
        have := hS.uniqLive l i (by omega) hi hc.2 hlive hc.1
        omega
      · exact ih (by omega)

/-- One iteration of the resize copy loop succeeds and preserves the two
resize invariants. -/
theorem resizeSlot_spec (c : Chunk) (m : Nat → Option Nat) (hI : ChunkInv c m)
    (cap' j' : Nat) (hcap' : cap' = 2 ^ j') (hcaple : c.cap ≤ cap')
    (i : Nat) (hi : i < c.cap) (o n : Chunk) (e : Nat)
    (hO : ResizeOldInv c i o) (hN : ResizeNewInv c cap' i n e) :
    ∃ o' n' e', resizeSlot o n e i = .ok (o', n', e') ∧
      ResizeOldInv c (i + 1) o' ∧ ResizeNewInv c cap' (i + 1) n' e' := by
  have hS := hI.slotsInv
  have hent : entryAt o.slots i = entryAt c.slots i := hO.untouchedRest i (le_refl i)
  have hko : keyOf o.slots i = keyOf c.slots i := by rw [keyOf, keyOf, hent]
  have hvo : valOf o.slots i = valOf c.slots i := by rw [valOf, valOf, hent]
  have hOadv_dead : valOf c.slots i = 0 → ResizeOldInv c (i + 1) o := by
    intro hv
    refine ⟨hO.capEq, hO.lenEq, ?_, ?_, ?_⟩
    · intro q hq hlv
      rcases Nat.lt_or_ge q i with h | h
      · exact hO.sentinelled q h hlv
      · have hqe : q = i := by omega
        subst hqe
        exact absurd hv hlv
    · intro q hq hdv
      rcases Nat.lt_or_ge q i with h | h
      · exact hO.untouchedDead q h hdv
      · have hqe : q = i := by omega
        subst hqe
        exact hent
    · intro q hq
      exact hO.untouchedRest q (by omega)
  have hNadv_dead : valOf c.slots i = 0 → ResizeNewInv c cap' (i + 1) n e := by
    intro hv
    refine ⟨hN.capEq, hN.occ0, hN.limEq, hN.effEq, by have := hN.effLe; omega, ?_⟩
    refine slotsInv_congr _ _ _ _ hN.inv ?_
    intro q
    show copiedMap c (i + 1) q = copiedMap c i q
    simp only [copiedMap]
    rw [if_neg]
    intro hc
    exact hc.2 hv
  by_cases hk0 : keyOf c.slots i = 0
  · have hv0 : valOf c.slots i = 0 := hS.keyZero i hi hk0
    refine ⟨o, n, e, ?_, hOadv_dead hv0, hNadv_dead hv0⟩
    simp only [resizeSlot]
    rw [hko, if_pos hk0]
  · by_cases hraw0 : valOf c.slots i = 0
    · refine ⟨o, n, e, ?_, hOadv_dead hraw0, hNadv_dead hraw0⟩
      simp only [resizeSlot]
      rw [hko, if_neg hk0, hvo, hraw0, parse_zero]
    · have hmk : m (keyOf c.slots i) = some (valOf c.slots i) :=
        (hS.liveOk i hi hraw0).2
      obtain ⟨h2, hlt⟩ : 2 ≤ valOf c.slots i ∧ valOf c.slots i < 2 ^ 63 :=
        (hI.mGood _ _ hmk).2
      have hnone : copiedMap c i (keyOf c.slots i) = none :=
        copiedMap_not_yet c m hS i hi hraw0 i (le_refl i)
      have hole : countKeyed n.slots < cap' := by
        have h1 := hN.effLe
        have h2 := hN.effEq
        omega
      obtain ⟨i', hi', hkey0, hreach, heq⟩ := modify_insert_none cap' j'
        (keyOf c.slots i) (valOf c.slots i ||| INV_BIT_MASK) hcap'
        n.slots (copiedMap c i) hN.inv hk0 hole hnone
        (.attemptInsert (valOf c.slots i ||| INV_BIT_MASK)) (Or.inr rfl)
      have hlenn : i' < n.slots.length := by rw [hN.inv.lenEq]; exact hi'
      have hmod : modify_entry n (keyOf c.slots i)
          (.attemptInsert (valOf c.slots i ||| INV_BIT_MASK))
          = ((.done i', i'),
             { n with slots := n.slots.set i' (keyOf c.slots i, valOf c.slots i ||| INV_BIT_MASK) }) := by
        simp [modify_entry, hN.capEq, heq]
      have hstrip : (valOf c.slots i ||| INV_BIT_MASK) &&& VAL_BIT_MASK
          = valOf c.slots i := by
        rw [lor_two_pow_63 _ hlt, VAL_BIT_MASK, land_two_pow_sub_one_eq_mod,
          Nat.add_mod_right, Nat.mod_eq_of_lt hlt]
      have hleno : i < o.slots.length := by
        rw [hO.lenEq, hS.lenEq]; exact hi
      refine ⟨{ o with slots := o.slots.set i (keyOf c.slots i, 1) },
        { n with slots := n.slots.set i' (keyOf c.slots i, valOf c.slots i) },
        e + 1, ?_, ?_, ?_⟩
      · simp only [resizeSlot]
        rw [hko, if_neg hk0, hvo]
        rw [parse_good _ h2 hlt]
        simp only [hmod]
        rw [if_pos (valOf_set_self hlenn _)]
        rw [List.set_set, hstrip]
      · refine ⟨hO.capEq, by simpa using hO.lenEq, ?_, ?_, ?_⟩
        · intro q hq hlv
          rcases Nat.lt_or_ge q i with h | h
          · rw [entryAt_set_ne (by omega) _]
            exact hO.sentinelled q h hlv
          · have hqe : q = i := by omega
            subst hqe
            rw [entryAt_set_self hleno _]
        · intro q hq hdv
          rcases Nat.lt_or_ge q i with h | h
          · rw [entryAt_set_ne (by omega) _]
            exact hO.untouchedDead q h hdv
          · have hqe : q = i := by omega
            subst hqe
            exact absurd hdv hraw0
        · intro q hq
          rw [entryAt_set_ne (by omega) _]
          exact hO.untouchedRest q (by omega)
      · have hcs := countKeyed_set n.slots i' (keyOf c.slots i, valOf c.slots i) hlenn
        rw [hkey0] at hcs
        simp only [ne_eq, not_true_eq_false, if_false, hk0, not_false_eq_true,
          if_true] at hcs
        have heff := hN.effEq
        refine ⟨hN.capEq, hN.occ0, hN.limEq, ?_, ?_, ?_⟩
        · show e + 1 = countKeyed (n.slots.set i' (keyOf c.slots i, valOf c.slots i))
          omega
        · show countKeyed (n.slots.set i' (keyOf c.slots i, valOf c.slots i)) ≤ i + 1
          have h1 := hN.effLe
          omega
        · have hfresh := slotsInv_insert_fresh cap' n.slots (copiedMap c i) hN.inv
            (copiedMap_zero c m hS i (by omega)) (keyOf c.slots i)
            (valOf c.slots i) hk0 i' hi' hkey0 hreach
            (no_live_of_none cap' n.slots (copiedMap c i) hN.inv _ hnone)
          refine slotsInv_congr _ _ _ _ hfresh ?_
          intro q
          simp only [copiedMap, mapUpd]
          by_cases hq : q = keyOf c.slots i
          · subst hq
            rw [if_pos ⟨rfl, hraw0⟩, if_pos rfl]
          · rw [if_neg (fun hc => hq hc.1.symm), if_neg hq]

/-- The resize copy loop over the first `i` slots succeeds and establishes
the two resize invariants. -/
theorem resizePartial_spec (c : Chunk) (m : Nat → Option Nat) (hI : ChunkInv c m)
    (cap' j' : Nat) (hcap' : cap' = 2 ^ j') (hcaple : c.cap ≤ cap') :
    ∀ i, i ≤ c.cap → ∃ o n e,
      resizePartial c (alloc_chunk cap') i = .ok (o, n, e) ∧
      ResizeOldInv c i o ∧ ResizeNewInv c cap' i n e := by
  intro i
  induction i with
  | zero =>
      intro _
      refine ⟨c, alloc_chunk cap', 0, rfl, ?_, ?_⟩
      · exact ⟨rfl, rfl, fun j hj => absurd hj (Nat.not_lt_zero j),
          fun j hj => absurd hj (Nat.not_lt_zero j), fun j _ => rfl⟩
      · exact ⟨rfl, rfl, rfl, (countKeyed_replicate _).symm,
          Nat.le_of_eq (countKeyed_replicate _), slotsInv_replicate cap'⟩
  | succ i ih =>
      intro hi1
      obtain ⟨o, n, e, heq, hO, hN⟩ := ih (by omega)
      obtain ⟨o', n', e', hstep, hO', hN'⟩ :=
        resizeSlot_spec c m hI cap' j' hcap' hcaple i (by omega) o n e hO hN
      refine ⟨o', n', e', ?_, hO', hN'⟩
      rw [resizePartial, heq]
      exact hstep

/-- The whole resize preserves the table: the resized chunk satisfies the
chunk invariant for the same model and sits at or under its occupancy
limit. -/
theorem do_resize_spec (c : Chunk) (m : Nat → Option Nat) (hI : ChunkInv c m) :
    ∃ c', do_resize c = .ok c' ∧ ChunkInv c' m ∧
      ¬ c'.occupation > c'.occuLimit := by
  obtain ⟨j, hj, hcapc⟩ := hI.capPow
  have hcap' : c.cap <<< (if c.cap < 2048 then 4 else 1)
      = 2 ^ (j + (if c.cap < 2048 then 4 else 1)) := by
    rw [Nat.shiftLeft_eq, hcapc, Nat.pow_add]
  have hc2 : 2 * c.cap ≤ c.cap <<< (if c.cap < 2048 then 4 else 1) := by
    rw [Nat.shiftLeft_eq]
    have h1 : (2 : Nat) ≤ 2 ^ (if c.cap < 2048 then 4 else 1) := by
      split <;> norm_num
    calc 2 * c.cap = c.cap * 2 := Nat.mul_comm _ _
    _ ≤ c.cap * 2 ^ (if c.cap < 2048 then 4 else 1) := Nat.mul_le_mul_left _ h1
  have hcaple : c.cap ≤ c.cap <<< (if c.cap < 2048 then 4 else 1) := by omega
  obtain ⟨o, n, e, heq, hO, hN⟩ := resizePartial_spec c m hI
    (c.cap <<< (if c.cap < 2048 then 4 else 1))
    (j + (if c.cap < 2048 then 4 else 1)) hcap' hcaple c.cap (le_refl _)
  have hlim : c.cap ≤ occupation_limit (c.cap <<< (if c.cap < 2048 then 4 else 1)) := by
    rw [occupation_limit]
    have h1 : 10 * c.cap ≤ 7 * (c.cap <<< (if c.cap < 2048 then 4 else 1)) := by omega
    have h2 := Nat.div_le_div_right (c := 10) h1
    rw [Nat.mul_div_cancel_left c.cap (by norm_num)] at h2
    exact h2
  have heff := hN.effEq
  have heffle := hN.effLe
  have hocc0 := hN.occ0
  have hlimEq := hN.limEq
  refine ⟨{ n with occupation := n.occupation + e }, ?_, ?_, ?_⟩
  · simp only [do_resize]
    rw [heq]
    rfl
  · refine ⟨⟨j + (if c.cap < 2048 then 4 else 1), by omega, ?_⟩, ?_, ?_, ?_,
      hI.mGood, ?_⟩
    · show n.cap = _
      rw [hN.capEq, hcap']
    · show n.occuLimit = occupation_limit n.cap
      rw [hN.capEq]
      exact hlimEq
    · show n.occupation + e = countKeyed n.slots
      omega
    · show n.occupation + e ≤ n.occuLimit + 1
      rw [hocc0, hlimEq]
      omega
    · show SlotsInv n.cap n.slots m
      rw [hN.capEq]
      refine slotsInv_congr _ _ _ _ hN.inv ?_
      intro q
      exact (copiedMap_full c m hI q).symm
  · show ¬ n.occupation + e > n.occuLimit
    rw [hocc0, hlimEq]
    omega

/-! ## Theorems: sequential round trip of the hash table (C4) -/

/-- `Table::insert` with fuel for one resize round always succeeds and
advances the invariant. -/
theorem table_insert_spec (c : Chunk) (m : Nat → Option Nat) (k v fuel : Nat)
    (hI : ChunkInv c m) (hk : GoodKey k) (hv : GoodVal v) :
    ∃ c' r, table_insert c k v (fuel + 2) = .ok (c', r) ∧
      ChunkInv c' (mapUpd m k v) := by
  by_cases hocc : c.occupation > c.occuLimit
  · obtain ⟨c₁, hres, hI₁, hocc₁⟩ := do_resize_spec c m hI
    obtain ⟨c', r, hins, hI', _⟩ := table_insert_noresize c₁ m k v fuel hI₁ hk hv hocc₁
    refine ⟨c', r, ?_, hI'⟩
    show table_insert c k v (fuel + 1 + 1) = _
    simp only [table_insert]
    rw [if_pos hocc, hres]
    exact hins
  · obtain ⟨c', r, hins, hI', _⟩ :=
      table_insert_noresize c m k v (fuel + 1) hI hk hv hocc
    exact ⟨c', r, hins, hI'⟩

/-- Running a sequence of good operations from an invariant-satisfying
chunk succeeds and lands on the folded reference model. -/
theorem runOps_spec (ops : List TableOp) :
    ∀ (c : Chunk) (m : Nat → Option Nat), ChunkInv c m →
    (∀ op ∈ ops, GoodOp op) →
    ∃ c', runOps c ops = .ok c' ∧ ChunkInv c' (ops.foldl applyOp m) := by
  induction ops with
  | nil =>
      intro c m hI _
      exact ⟨c, rfl, hI⟩
  | cons op ops ih =>
      intro c m hI hg
      have hgo : GoodOp op := hg op (List.mem_cons_self op ops)
      have hgrest : ∀ o ∈ ops, GoodOp o :=
        fun o ho => hg o (List.mem_cons_of_mem op ho)
      cases op with
      | ins k v =>
          obtain ⟨c₁, r, hins, hI₁⟩ :=
            table_insert_spec c m k v 0 hI hgo.1 hgo.2
          obtain ⟨c', hrun, hI'⟩ := ih c₁ (mapUpd m k v) hI₁ hgrest
          refine ⟨c', ?_, ?_⟩
          · simp only [runOps]
            rw [show (2 : Nat) = 0 + 2 from rfl, hins]
            exact hrun
          · rw [List.foldl_cons]
            exact hI'
      | del k =>
          obtain ⟨c₁, r, hrem, hI₁, _⟩ := table_remove_spec c m k hI hgo
          obtain ⟨c', hrun, hI'⟩ := ih c₁ (mapDel m k) hI₁ hgrest
          refine ⟨c', ?_, ?_⟩
          · simp only [runOps]
            rw [hrem]
            exact hrun
          · rw [List.foldl_cons]
            exact hI'

/-- **C4.**  Sequential round trip of the hash table: running any
single-threaded sequence of inserts and removes (keys non-zero, values in
the representable band) from a freshly allocated chunk succeeds, and a
subsequent `get` of any key returns exactly what the reference map —
"the most recent insert not followed by a remove" — holds for it. -/
theorem c4_hash_round_trip (j : Nat) (hj : 2 ≤ j) (ops : List TableOp)
    (hops : ∀ op ∈ ops, GoodOp op) (k : Nat) (hk : GoodKey k) :
    ∃ c', runOps (alloc_chunk (2 ^ j)) ops = .ok c' ∧
      chunkGet c' k = specOf ops k := by
  obtain ⟨c', hrun, hI'⟩ :=
    runOps_spec ops (alloc_chunk (2 ^ j)) (fun _ => none) (chunkInv_alloc j hj) hops
  exact ⟨c', hrun, chunkGet_spec c' _ k hI' hk⟩

theorem c4_hash_round_trip_witness :
    2 ≤ 2 ∧
    (∀ op ∈ [TableOp.ins 5 10, .ins 6 11, .del 5, .ins 6 12], GoodOp op) ∧
    GoodKey 6 ∧
    ∃ c', runOps (alloc_chunk (2 ^ 2))
        [TableOp.ins 5 10, .ins 6 11, .del 5, .ins 6 12] = .ok c' ∧
      chunkGet c' 6 = specOf [TableOp.ins 5 10, .ins 6 11, .del 5, .ins 6 12] 6 :=
  ⟨by decide, by decide, by decide,
    c4_hash_round_trip 2 (by decide)
      [TableOp.ins 5 10, .ins 6 11, .del 5, .ins 6 12] (by decide) 6 (by decide)⟩

/-! ## Theorems: visibility across a resize (C6) -/

theorem table_get_direct (o n : Chunk) (k w : Nat)
    (h : (get_from_chunk o k).1 = .val w) : table_get o n k = some w := by
  show getLoop n k o (1 + 1) = some w
  simp only [getLoop]
  rw [h]

theorem table_get_via_sentinel (o n : Chunk) (k w : Nat)
    (h1 : (get_from_chunk o k).1 = .sentinel)
    (h2 : (get_from_chunk n k).1 = .val w) : table_get o n k = some w := by
  show getLoop n k o (1 + 1) = some w
  simp only [getLoop]
  rw [h1]
  show getLoop n k n (0 + 1) = some w
  simp only [getLoop]
  rw [h2]

/-- Mid-resize visibility: after the copy loop has processed `i` old slots,
`Table::get` against the (old, new) chunk pair still returns every binding
of the model — the old slot is either untouched (direct hit) or sentinelled,
in which case the probe continues into the new chunk, which already holds
the copied binding. -/
theorem resize_get_mid (c : Chunk) (m : Nat → Option Nat) (hI : ChunkInv c m)
    (cap' j' : Nat) (hcap' : cap' = 2 ^ j') (i : Nat) (hi : i ≤ c.cap)
    (o n : Chunk) (e : Nat)
    (hO : ResizeOldInv c i o) (hN : ResizeNewInv c cap' i n e)
    (k w : Nat) (hk : k ≠ 0) (hm : m k = some w) :
    table_get o n k = some w := by
  obtain ⟨j, hj, hcapc⟩ := hI.capPow
  have hS := hI.slotsInv
  have hpos : 0 < c.cap := by rw [hcapc]; exact Nat.two_pow_pos j
  have hh : k % c.cap < c.cap := Nat.mod_lt _ hpos
  obtain ⟨hw2, hwlt⟩ : 2 ≤ w ∧ w < 2 ^ 63 := (hI.mGood k w hm).2
  obtain ⟨l, hl, hkl, hvl⟩ := hS.complete k w hm
  have hlive : valOf c.slots l ≠ 0 := by rw [hvl]; omega
  have hkeys : ∀ q, q < c.cap → keyOf o.slots q = keyOf c.slots q := by
    intro q hq
    rcases Nat.lt_or_ge q i with h | h
    · by_cases hv : valOf c.slots q = 0
      · rw [keyOf, hO.untouchedDead q h hv, keyOf]
      · rw [keyOf, hO.sentinelled q h hv]
    · rw [keyOf, hO.untouchedRest q h, keyOf]
  have hvals_dead : ∀ q, q < c.cap → valOf c.slots q = 0 → valOf o.slots q = 0 := by
    intro q hq hv
    rcases Nat.lt_or_ge q i with h | h
    · rw [valOf, hO.untouchedDead q h hv]
      exact hv
    · rw [valOf, hO.untouchedRest q h]
      exact hv
  have hhome : keyOf c.slots l % c.cap = k % c.cap := by rw [hkl]
  have ht₁ : probeDist c.cap (k % c.cap) l < c.cap := probeDist_lt _ _ _ hpos
  have hpt₁ : pIdx c.cap (k % c.cap) (probeDist c.cap (k % c.cap) l) = l :=
    pIdx_probeDist _ _ _ hh hl
  have hreach₁ : ∀ t, t < probeDist c.cap (k % c.cap) l →
      keyOf c.slots (pIdx c.cap (k % c.cap) t) ≠ 0 := by
    intro t ht
    have := hS.reach l hl hlive t (by rw [hhome]; exact ht)
    rw [hhome] at this
    exact this
  have hbor : ∀ u, u < probeDist c.cap (k % c.cap) l →
      (keyOf o.slots (pIdx c.cap (k % c.cap) u) ≠ k ∧
        keyOf o.slots (pIdx c.cap (k % c.cap) u) ≠ 0) ∨
      (keyOf o.slots (pIdx c.cap (k % c.cap) u) = k ∧
        valOf o.slots (pIdx c.cap (k % c.cap) u) = 0) := by
    intro u hu
    have hplt : pIdx c.cap (k % c.cap) u < c.cap := pIdx_lt _ _ _ hpos
    rw [hkeys _ hplt]
    by_cases hkq : keyOf c.slots (pIdx c.cap (k % c.cap) u) = k
    · refine Or.inr ⟨hkq, ?_⟩
      have hdead : valOf c.slots (pIdx c.cap (k % c.cap) u) = 0 := by
        by_contra hvq
        have huniq := hS.uniqLive _ l hplt hl hvq hlive (by rw [hkq, hkl])
        rw [← hpt₁] at huniq
        have := pIdx_inj c.cap (k % c.cap) u (probeDist c.cap (k % c.cap) l) hh
          (by omega) ht₁ huniq
        omega
      exact hvals_dead _ hplt hdead
    · exact Or.inl ⟨hkq, hreach₁ u hu⟩
  have hcapo : o.cap = c.cap := hO.capEq
  have hidx0 : k % c.cap = pIdx c.cap (k % c.cap) 0 := (pIdx_zero _ _ hh).symm
  have hskip := getGo_skip_range c.cap j k hcapc hpos hk o.slots (k % c.cap)
    (probeDist c.cap (k % c.cap) l) 0 k
    (c.cap - probeDist c.cap (k % c.cap) l) hidx0
    (fun u hu => by rw [Nat.zero_add]; exact hbor u hu)
  rw [Nat.zero_add] at hskip
  rw [show probeDist c.cap (k % c.cap) l + (c.cap - probeDist c.cap (k % c.cap) l)
      = c.cap by omega] at hskip
  have hmod₁ : pIdx c.cap (k % c.cap) (probeDist c.cap (k % c.cap) l) % c.cap
      = pIdx c.cap (k % c.cap) (probeDist c.cap (k % c.cap) l) :=
    Nat.mod_eq_of_lt (pIdx_lt _ _ _ hpos)
  rcases Nat.lt_or_ge l i with hli | hge
  · have hentl := hO.sentinelled l hli hlive
    have hterm := getGo_sentinel c.cap j k hcapc o.slots
      (pIdx c.cap (k % c.cap) (probeDist c.cap (k % c.cap) l))
      (c.cap - probeDist c.cap (k % c.cap) l - 1)
      (by rw [hmod₁, hpt₁]
          show keyOf o.slots l = k
          rw [keyOf, hentl]
          exact hkl)
      (by rw [hmod₁, hpt₁]
          show valOf o.slots l = 1
          rw [valOf, hentl])
    rw [show c.cap - probeDist c.cap (k % c.cap) l - 1 + 1
        = c.cap - probeDist c.cap (k % c.cap) l by omega] at hterm
    have hcm : copiedMap c i k = some w := by
      have := copiedMap_live c m hS i hi l hli hlive
      rw [hkl, hvl] at this
      exact this
    obtain ⟨i₁, _, heqn⟩ := getGo_spec_some cap' j' k w hcap' n.slots
      (copiedMap c i) hN.inv (copiedMap_good c m hI i hi) hk hcm
    refine table_get_via_sentinel o n k w ?_ ?_
    · rw [get_from_chunk, hcapo, hskip, hterm]
    · rw [get_from_chunk, hN.capEq, heqn]
  · have hentl := hO.untouchedRest l hge
    have hterm := getGo_live c.cap j k w hcapc o.slots
      (pIdx c.cap (k % c.cap) (probeDist c.cap (k % c.cap) l))
      (c.cap - probeDist c.cap (k % c.cap) l - 1)
      (by rw [hmod₁, hpt₁]
          show keyOf o.slots l = k
          rw [keyOf, hentl]
          exact hkl)
      (by rw [hmod₁, hpt₁]
          show valOf o.slots l = w
          rw [valOf, hentl]
          exact hvl)
      hw2 hwlt
    rw [show c.cap - probeDist c.cap (k % c.cap) l - 1 + 1
        = c.cap - probeDist c.cap (k % c.cap) l by omega] at hterm
    refine table_get_direct o n k w ?_
    rw [get_from_chunk, hcapo, hskip, hterm]

/-- **C6.**  Resize preserves every binding, both at completion and at every
intermediate point of the copy loop: a key bound in the model before the
resize is returned by `get` against the finished chunk, and by `get` against
the (old, new) chunk pair after any prefix of the copy. -/
theorem c6_resize_preserves (c c' o n : Chunk) (m : Nat → Option Nat)
    (e i k w : Nat) (hI : ChunkInv c m) (hk : GoodKey k) (hm : m k = some w)
    (hres : do_resize c = .ok c') (hi : i ≤ c.cap)
    (hpart : resizePartial c
      (alloc_chunk (c.cap <<< (if c.cap < 2048 then 4 else 1))) i = .ok (o, n, e)) :
    chunkGet c' k = some w ∧ table_get o n k = some w := by
  obtain ⟨j, hj, hcapc⟩ := hI.capPow
  have hcap' : c.cap <<< (if c.cap < 2048 then 4 else 1)
      = 2 ^ (j + (if c.cap < 2048 then 4 else 1)) := by
    rw [Nat.shiftLeft_eq, hcapc, Nat.pow_add]
  have hcaple : c.cap ≤ c.cap <<< (if c.cap < 2048 then 4 else 1) := by
    rw [Nat.shiftLeft_eq]
    have h1 : 0 < 2 ^ (if c.cap < 2048 then 4 else 1) := Nat.two_pow_pos _
    calc c.cap = c.cap * 1 := (Nat.mul_one _).symm
    _ ≤ c.cap * 2 ^ (if c.cap < 2048 then 4 else 1) := Nat.mul_le_mul_left _ h1
  constructor
  · obtain ⟨c'', hres', hI', _⟩ := do_resize_spec c m hI
    rw [hres'] at hres
    injection hres with hcc
    subst hcc
    rw [chunkGet_spec _ m k hI' hk]
    exact hm
  · obtain ⟨o₀, n₀, e₀, heq, hO, hN⟩ :=
      resizePartial_spec c m hI _ _ hcap' hcaple i hi
    rw [heq] at hpart
    injection hpart with hp
    injection hp with hp1 hp2
    injection hp2 with hp3 hp4
    subst hp1
    subst hp3
    exact resize_get_mid c m hI _ _ hcap' i hi o₀ n₀ e₀ hO hN k w hk hm

theorem c6_resize_preserves_witness :
    ChunkInv ⟨4, [(0, 0), (5, 7), (0, 0), (0, 0)], 1, 2⟩ (mapUpd (fun _ => none) 5 7) ∧
    GoodKey 5 ∧
    mapUpd (fun _ => none) 5 7 5 = some 7 ∧
    do_resize ⟨4, [(0, 0), (5, 7), (0, 0), (0, 0)], 1, 2⟩
      = .ok ⟨64, (List.replicate 64 ((0 : Nat), (0 : Nat))).set 5 (5, 7), 1, 44⟩ ∧
    2 ≤ (⟨4, [(0, 0), (5, 7), (0, 0), (0, 0)], 1, 2⟩ : Chunk).cap ∧
    resizePartial ⟨4, [(0, 0), (5, 7), (0, 0), (0, 0)], 1, 2⟩
      (alloc_chunk ((⟨4, [(0, 0), (5, 7), (0, 0), (0, 0)], 1, 2⟩ : Chunk).cap
        <<< (if (⟨4, [(0, 0), (5, 7), (0, 0), (0, 0)], 1, 2⟩ : Chunk).cap < 2048 then 4 else 1))) 2
      = .ok (⟨4, [(0, 0), (5, 1), (0, 0), (0, 0)], 1, 2⟩,
             ⟨64, (List.replicate 64 ((0 : Nat), (0 : Nat))).set 5 (5, 7), 0, 44⟩, 1) ∧
    (chunkGet ⟨64, (List.replicate 64 ((0 : Nat), (0 : Nat))).set 5 (5, 7), 1, 44⟩ 5 = some 7 ∧
     table_get ⟨4, [(0, 0), (5, 1), (0, 0), (0, 0)], 1, 2⟩
       ⟨64, (List.replicate 64 ((0 : Nat), (0 : Nat))).set 5 (5, 7), 0, 44⟩ 5 = some 7) := by
  have hI : ChunkInv ⟨4, [(0, 0), (5, 7), (0, 0), (0, 0)], 1, 2⟩
      (mapUpd (fun _ => none) 5 7) := by
    have huniq : ∀ i, i < 4 → ∀ j, j < 4 →
        valOf [(0, 0), (5, 7), (0, 0), (0, 0)] i ≠ 0 →
        valOf [(0, 0), (5, 7), (0, 0), (0, 0)] j ≠ 0 →
        keyOf [(0, 0), (5, 7), (0, 0), (0, 0)] i
          = keyOf [(0, 0), (5, 7), (0, 0), (0, 0)] j → i = j := by decide
    refine ⟨⟨2, by decide, rfl⟩, rfl, by decide, by decide, ?_,
      by decide, by decide, by decide, ?_, fun i j hi hj => huniq i hi j hj,
      by decide⟩
    · intro k v h
      by_cases h5 : k = 5
      · subst h5
        have hv : v = 7 := by simpa [mapUpd] using h.symm
        subst hv
        exact ⟨by decide, by decide⟩
      · simp [mapUpd, h5] at h
    · intro k v h
      by_cases h5 : k = 5
      · subst h5
        have hv : v = 7 := by simpa [mapUpd] using h.symm
        subst hv
        exact ⟨1, by decide, rfl, rfl⟩
      · simp [mapUpd, h5] at h
  have hres : do_resize ⟨4, [(0, 0), (5, 7), (0, 0), (0, 0)], 1, 2⟩
      = .ok ⟨64, (List.replicate 64 ((0 : Nat), (0 : Nat))).set 5 (5, 7), 1, 44⟩ := by rfl
  have hpart : resizePartial ⟨4, [(0, 0), (5, 7), (0, 0), (0, 0)], 1, 2⟩
      (alloc_chunk ((⟨4, [(0, 0), (5, 7), (0, 0), (0, 0)], 1, 2⟩ : Chunk).cap
        <<< (if (⟨4, [(0, 0), (5, 7), (0, 0), (0, 0)], 1, 2⟩ : Chunk).cap < 2048 then 4 else 1))) 2
      = .ok (⟨4, [(0, 0), (5, 1), (0, 0), (0, 0)], 1, 2⟩,
             ⟨64, (List.replicate 64 ((0 : Nat), (0 : Nat))).set 5 (5, 7), 0, 44⟩, 1) := by rfl
  exact ⟨hI, by decide, rfl, hres, by decide, hpart,
    c6_resize_preserves _ _ _ _ _ 1 2 5 7 hI (by decide) rfl hres (by decide) hpart⟩

end Skyhooks
